import Mathlib

/-!
# Shallow embedding of `src/src/ekf.cpp` (roscopter motion-capture EKF)

The C++ class `ekf::mocapFilter` is embedded as a record of its members and one
Lean function per member function.  Scalars (`double`) are elements of a
linearly ordered field `K` (exact arithmetic; `ℚ` for evaluation, `ℝ` for the
analytic statements); rounding of `double` operations is modelled separately for
`LPF` (`round64`, `LPF64`).  `ros::Time` values are scalars in seconds.

Conventions of the embedding:

* `cos`, `sin`, `tan` of `<cmath>` are supplied by a record `Libm K`.
* The macro `G` of the absent header `ekf/ekf.h` is a parameter.
* The orientation of a message is carried as the three Euler angles that the
  `tf` conversion (`getRPY`, `getEulerYPR`) extracts from its quaternion.
* `Eigen::inverse()` only has a value on an invertible matrix.  A member whose
  value was computed from the inverse of a singular matrix holds no real number
  afterwards: `x_hat_` and `P_` are therefore `Option`-valued, `none` meaning
  that the member no longer holds a real vector / matrix.
* Publishing is recorded as a list of `Output`s returned by every callback.
-/

namespace ekf

/-! ## Data model -/

/-- Modelled from the spec: `NUM_STATES` of the absent header `ekf/ekf.h`; the state
vector has 9 scalar components. -/
abbrev NUM_STATES : Nat := 9

/-- State-sized column vector, `Eigen::Matrix<double, NUM_STATES, 1>`. -/
abbrev Vec (K : Type) := Fin NUM_STATES → K

/-- State-sized square matrix, `Eigen::Matrix<double, NUM_STATES, NUM_STATES>`. -/
abbrev Mat (K : Type) := Matrix (Fin NUM_STATES) (Fin NUM_STATES) K

/-- Modelled from the spec: index macro of `ekf/ekf.h`; the fixed order of the state
components is `PN, PE, PD, U, V, W, PHI, THETA, PSI`. -/
abbrev PN : Fin NUM_STATES := 0
/-- Modelled from the spec: index macro of `ekf/ekf.h` (see `PN`). -/
abbrev PE : Fin NUM_STATES := 1
/-- Modelled from the spec: index macro of `ekf/ekf.h` (see `PN`). -/
abbrev PD : Fin NUM_STATES := 2
/-- Modelled from the spec: index macro of `ekf/ekf.h` (see `PN`). -/
abbrev U : Fin NUM_STATES := 3
/-- Modelled from the spec: index macro of `ekf/ekf.h` (see `PN`). -/
abbrev V : Fin NUM_STATES := 4
/-- Modelled from the spec: index macro of `ekf/ekf.h` (see `PN`). -/
abbrev W : Fin NUM_STATES := 5
/-- Modelled from the spec: index macro of `ekf/ekf.h` (see `PN`). -/
abbrev PHI : Fin NUM_STATES := 6
/-- Modelled from the spec: index macro of `ekf/ekf.h` (see `PN`). -/
abbrev THETA : Fin NUM_STATES := 7
/-- Modelled from the spec: index macro of `ekf/ekf.h` (see `PN`). -/
abbrev PSI : Fin NUM_STATES := 8

/-- The three `<cmath>` functions used by `f`, `dfdx` (and read by `updateIMU`). -/
structure Libm (K : Type) where
  cos : K → K
  sin : K → K
  tan : K → K

/-- A `geometry_msgs::Vector3`. -/
structure Vector3 (K : Type) where
  x : K
  y : K
  z : K

/-- A `sensor_msgs::Imu` sample.  `roll`, `pitch`, `yaw` are the angles that
`tf::Matrix3x3(attitude_tf).getEulerYPR(yaw, pitch, roll)` yields for its orientation. -/
structure Imu (K : Type) where
  linear_acceleration : Vector3 K
  angular_velocity : Vector3 K
  roll : K
  pitch : K
  yaw : K

/-- A `geometry_msgs::TransformStamped` sample.  `origin` is
`measurement.getOrigin()`; `roll`, `pitch`, `yaw` are the angles that
`tf::Matrix3x3(measurement.getRotation()).getRPY(roll, pitch, yaw)` yields. -/
structure TransformStamped (K : Type) where
  origin : Vector3 K
  roll : K
  pitch : K
  yaw : K

/-- The function-local `static` variables of `updateIMU` (lines 119-120). -/
structure Statics (K : Type) where
  prev_gx : K
  prev_gy : K
  prev_gz : K
  filt_ax : K
  filt_ay : K

/-- The members of `ekf::mocapFilter` that the estimator reads or writes.
`statics = none` until the first call of `updateIMU` runs the static initialisers. -/
structure mocapFilter (K : Type) where
  alpha : K
  x_hat : Option (Vec K)
  P : Option (Mat K)
  Q : Mat K
  R_IMU : Matrix (Fin 3) (Fin 3) K
  R_Mocap : Matrix (Fin 6) (Fin 6) K
  flying : Bool
  previous_predict_time : K
  p : K
  q : K
  r : K
  filt_az : K
  statics : Option (Statics K)

/-- The numeric content of the `nav_msgs::Odometry` built by `publishEstimate`;
the orientation quaternion is `setRPY(phi, theta, psi)` and is carried by its
three arguments. -/
structure Odometry (K : Type) where
  position : Vector3 K
  orientation_rpy : Vector3 K
  pose_covariance_diag : Fin 6 → K
  twist_linear : Vector3 K
  twist_angular : Vector3 K
  twist_covariance_diag : Fin 6 → K

/-- What a callback publishes: a `std_msgs::Bool` on `is_flying`, or an estimate
(stamped with the current time; `none` when `x_hat_` or `P_` holds no real value). -/
inductive Output (K : Type) where
  | is_flying (data : Bool)
  | estimate (stamp : K) (msg : Option (Odometry K))

/-- The callbacks the node dispatches, each with the value `ros::Time::now()`
returns while it runs. -/
inductive Event (K : Type) where
  | imu (msg : Imu K) (now : K)
  | mocap (msg : TransformStamped K)
  | predictTimer (now : K)
  | publishTimer (now : K)

variable {K : Type} [LinearOrderedField K]

/-! ## Library operations -/

/-- `Eigen::MatrixBase::inverse()`: the inverse of an invertible matrix (by the
cofactor formula); a singular matrix has no inverse. -/
def inverse {n : Nat} (S : Matrix (Fin n) (Fin n) K) : Option (Matrix (Fin n) (Fin n) K) :=
  if S.det = 0 then none else some (S.det⁻¹ • S.adjugate)

/-- Coefficient write `M(i, j) = v`. -/
def setCoeff {m n : Nat} (M : Matrix (Fin m) (Fin n) K) (i : Fin m) (j : Fin n) (v : K) :
    Matrix (Fin m) (Fin n) K :=
  fun a b => if a = i ∧ b = j then v else M a b

/-! ## Member functions -/

/-- The constructor (lines 6-31): the parameters are what the parameter server
delivers; `flying_ = false`; `ros::Time` default-constructs to zero; the members
`p_`, `q_`, `r_`, `filt_az_` are not initialised and hold arbitrary values. -/
def construct (alpha : K) (x0 : Vec K) (P0 Q0 : Mat K) (R_IMU : Matrix (Fin 3) (Fin 3) K)
    (R_Mocap : Matrix (Fin 6) (Fin 6) K) (p q r filt_az : K) : mocapFilter K :=
  { alpha := alpha, x_hat := some x0, P := some P0, Q := Q0, R_IMU := R_IMU,
    R_Mocap := R_Mocap, flying := false, previous_predict_time := 0,
    p := p, q := q, r := r, filt_az := filt_az, statics := none }

/-- `mocapFilter::LPF` (lines 302-305), read in exact arithmetic; `LPF64` is the same
function with every `double` operation rounded. -/
def LPF (s : mocapFilter K) (yn un : K) : K :=
  s.alpha * yn + (1 - s.alpha) * un

/-- `mocapFilter::f` (lines 184-211). -/
def f (m : Libm K) (G : K) (s : mocapFilter K) (x : Vec K) : Vec K :=
  let u := x U
  let v := x V
  let w := x W
  let phi := x PHI
  let theta := x THETA
  let psi := x PSI
  let ct := m.cos theta
  let cs := m.cos psi
  let cp := m.cos phi
  let st := m.sin theta
  let ss := m.sin psi
  let sp := m.sin phi
  let tt := m.tan theta
  ![ct*cs*u + (sp*st*cs-cp*ss)*v + (cp*st*cs+sp*ss)*w,
    cp*ss*u + (sp*st*ss+cp*cs)*v + (cp*st*ss-sp*cs)*w,
    st*u - sp*ct*v - cp*ct*w,
    s.r*v - s.q*w - G*st,
    s.p*w - s.r*u + G*ct*sp,
    s.q*u - s.p*v + G*ct*cp + s.filt_az,
    s.p + sp*tt*s.q + cp*tt*s.r,
    cp*s.q - sp*s.r,
    sp/ct*s.q + cp/ct*s.r]

/-- `mocapFilter::dfdx` (lines 215-256). -/
def dfdx (m : Libm K) (G : K) (s : mocapFilter K) (x : Vec K) : Mat K :=
  let u := x U
  let v := x V
  let w := x W
  let phi := x PHI
  let theta := x THETA
  let psi := x PSI
  let ct := m.cos theta
  let cs := m.cos psi
  let cp := m.cos phi
  let st := m.sin theta
  let ss := m.sin psi
  let sp := m.sin phi
  let tt := m.tan theta
  !![0, 0, 0, ct*cs, (sp*st*cs-cp*ss), (cp*st*cs+sp*ss),
       0 + (cp*st*cs+sp*ss)*v + (-sp*st*cs+cp*ss)*w,
       -st*cs*u + (sp*ct*cs)*v + (cp*ct*ss)*w,
       -ct*ss*u + (-sp*st*ss-cp*cs)*v + (-cp*st*ss+sp*cs)*w;
     0, 0, 0, cp*ss, (sp*st*ss+cp*cs), (cp*st*ss-sp*cs),
       0 + (cp*st*ss-sp*cs)*v + (-sp*st*ss-cp*cs)*w,
       -st*ss*u + (sp*ct*ss)*v + (cp*ct*ss)*w,
       ct*cs*u + (sp*st*cs-cp*ss)*v + (cp*st*cs+sp*ss)*w;
     0, 0, 0, st, -sp*ct, -cp*ct,
       cp*ct*v - sp*ct*w,
       -ct*u - sp*st*v - cp*st*w,
       0;
     0, 0, 0, 0, s.r, -s.q, 0, -G*ct, 0;
     0, 0, 0, -s.r, 0, s.p, G*ct*cp, -G*ct*sp, 0;
     0, 0, 0, s.q, -s.p, 0, -G*ct*sp, -G*st*cp, 0;
     0, 0, 0, 0, 0, 0, cp*tt*s.q-sp*tt*s.r, (sp*s.q + cp*s.r)/(ct*ct), 0;
     0, 0, 0, 0, 0, 0, -sp*s.q-cp*s.r, 0, 0;
     0, 0, 0, 0, 0, 0, (s.q*cp-s.r*sp)/ct, -(s.q*sp+s.r*cp)*tt/ct, 0]

/-- `mocapFilter::initializeX` (lines 78-92). -/
def initializeX (s : mocapFilter K) (msg : TransformStamped K) : mocapFilter K :=
  { s with x_hat := some ![msg.origin.x, -msg.origin.y, -msg.origin.z, 0, 0, 0,
                           msg.roll, -msg.pitch, -msg.yaw] }

/-- `mocapFilter::predictStep` (lines 94-103); `now` is `ros::Time::now()`. -/
def predictStep (m : Libm K) (G : K) (s : mocapFilter K) (now : K) : mocapFilter K :=
  let dt := now - s.previous_predict_time
  let x1 := s.x_hat.map fun x => x + dt • f m G s x
  let A := x1.map (dfdx m G s)
  let P1 := A.bind fun A => s.P.map fun P => P + dt • (A * P + P * A.transpose + s.Q)
  { s with x_hat := x1, P := P1, previous_predict_time := now }

/-- The observation matrix `C` of `updateIMU` (lines 140-150). -/
def imuC : Matrix (Fin 3) (Fin NUM_STATES) K :=
  !![0, 0, 0, 0, 0, 0, 1, 0, 0;
     0, 0, 0, 0, 0, 0, 0, 1, 0;
     0, 0, 0, 0, 0, 0, 0, 0, 1]

/-- The measurement vector `y` of `updateIMU` (lines 137-139). -/
def imuY (msg : Imu K) : Fin 3 → K :=
  ![msg.roll, msg.pitch, msg.yaw]

/-- `mocapFilter::updateIMU` (lines 105-156).  The trigonometric locals of lines
109-115 are never read and are omitted. -/
def updateIMU (s : mocapFilter K) (msg : Imu K) : mocapFilter K :=
  let ax := msg.linear_acceleration.x
  let ay := msg.linear_acceleration.y
  let az := msg.linear_acceleration.z
  let st : Statics K := s.statics.getD
    ⟨msg.angular_velocity.x, msg.angular_velocity.y, msg.angular_velocity.z, ax, ay⟩
  let p := LPF s st.prev_gx msg.angular_velocity.x
  let q := LPF s st.prev_gy msg.angular_velocity.y
  let r := LPF s st.prev_gz msg.angular_velocity.z
  let filt_az := LPF s s.filt_az az
  let filt_ax := LPF s st.filt_ax ax
  let filt_ay := LPF s st.filt_ay ay
  let y : Fin 3 → K := imuY msg
  let C : Matrix (Fin 3) (Fin NUM_STATES) K := imuC
  let L := s.P.bind fun P =>
    (inverse (s.R_IMU + C * P * C.transpose)).map fun Sinv => P * C.transpose * Sinv
  let P1 := L.bind fun L => s.P.map fun P => (1 - L * C) * P
  let x1 := L.bind fun L => s.x_hat.map fun x => x + L.mulVec (y - C.mulVec x)
  { s with
    p := p, q := q, r := r, filt_az := filt_az,
    statics := some ⟨msg.angular_velocity.x, msg.angular_velocity.y, msg.angular_velocity.z,
                     filt_ax, filt_ay⟩,
    P := P1, x_hat := x1 }

/-- The observation matrix `C` of `updateMocap` (lines 169-175): zero, then six
coefficient writes. -/
def mocapC : Matrix (Fin 6) (Fin NUM_STATES) K :=
  setCoeff (setCoeff (setCoeff (setCoeff (setCoeff (setCoeff 0
    0 PN 1) 1 PE 1) 2 PD 1) 3 PHI 0) 4 THETA 0) 5 PSI 1

/-- The measurement vector `y` of `updateMocap` (lines 164-168). -/
def mocapY (msg : TransformStamped K) : Fin 6 → K :=
  ![msg.origin.x, -msg.origin.y, -msg.origin.z, msg.roll, -msg.pitch, -msg.yaw]

/-- `mocapFilter::updateMocap` (lines 158-181). -/
def updateMocap (s : mocapFilter K) (msg : TransformStamped K) : mocapFilter K :=
  let y : Fin 6 → K := mocapY msg
  let C : Matrix (Fin 6) (Fin NUM_STATES) K := mocapC
  let L := s.P.bind fun P =>
    (inverse (s.R_Mocap + C * P * C.transpose)).map fun Sinv => P * C.transpose * Sinv
  let P1 := L.bind fun L => s.P.map fun P => (1 - L * C) * P
  let x1 := L.bind fun L => s.x_hat.map fun x => x + L.mulVec (y - C.mulVec x)
  { s with P := P1, x_hat := x1 }

/-- `mocapFilter::publishEstimate` (lines 258-299). -/
def publishEstimate (s : mocapFilter K) (now : K) : Output K :=
  Output.estimate now <| s.x_hat.bind fun x => s.P.map fun P =>
    { position := ⟨x PN, x PE, x PD⟩
      orientation_rpy := ⟨x PHI, x THETA, x PSI⟩
      pose_covariance_diag := ![P PN PN, P PE PE, P PD PD, P PHI PHI, P THETA THETA, P PSI PSI]
      twist_linear := ⟨x U, x V, x W⟩
      twist_angular := ⟨s.p, s.q, s.r⟩
      twist_covariance_diag := ![P U U, P V V, P W W, 0.05, 0.05, 0.05] }

/-- `mocapFilter::publishTimerCallback` (lines 33-37). -/
def publishTimerCallback (s : mocapFilter K) (now : K) : mocapFilter K × List (Output K) :=
  (s, [publishEstimate s now])

/-- `mocapFilter::predictTimerCallback` (lines 39-45). -/
def predictTimerCallback (m : Libm K) (G : K) (s : mocapFilter K) (now : K) :
    mocapFilter K × List (Output K) :=
  if s.flying then (predictStep m G s now, []) else (s, [])

/-- `mocapFilter::imuCallback` (lines 48-64); `now` is the value of
`ros::Time::now()` read on line 57. -/
def imuCallback (s : mocapFilter K) (msg : Imu K) (now : K) :
    mocapFilter K × List (Output K) :=
  let (s1, out) : mocapFilter K × List (Output K) :=
    if !s.flying then
      if |msg.linear_acceleration.z| > 11.0 then
        ({ s with flying := true, previous_predict_time := now }, [Output.is_flying true])
      else (s, [])
    else (s, [])
  if s1.flying then (updateIMU s1 msg, out) else (s1, out)

/-- `mocapFilter::mocapCallback` (lines 67-76). -/
def mocapCallback (s : mocapFilter K) (msg : TransformStamped K) :
    mocapFilter K × List (Output K) :=
  if !s.flying then (initializeX s msg, []) else (updateMocap s msg, [])

/-- One dispatched callback. -/
def step (m : Libm K) (G : K) (s : mocapFilter K) : Event K → mocapFilter K × List (Output K)
  | .imu msg now => imuCallback s msg now
  | .mocap msg => mocapCallback s msg
  | .predictTimer now => predictTimerCallback m G s now
  | .publishTimer now => publishTimerCallback s now

/-- The callbacks of a finite sequence run one after another (the node is
single-threaded); the outputs are collected in order. -/
def run (m : Libm K) (G : K) (s : mocapFilter K) : List (Event K) → mocapFilter K × List (Output K)
  | [] => (s, [])
  | e :: es =>
    let r1 := step m G s e
    let r2 := run m G r1.1 es
    (r2.1, r1.2 ++ r2.2)


/-! ## Observers used to state the properties -/

/-- A square matrix is invertible: its determinant is not zero. -/
def nonsingular {n : Nat} (S : Matrix (Fin n) (Fin n) K) : Prop :=
  S.det ≠ 0

/-- The state index observed by row `i` of the inertial observation matrix. -/
def attIdx : Fin 3 → Fin NUM_STATES := ![PHI, THETA, PSI]

/-- The state index that entry `k` of the pose measurement refers to. -/
def poseIdx : Fin 6 → Fin NUM_STATES := ![PN, PE, PD, PHI, THETA, PSI]

/-- The rows of the pose observation matrix that hold a one (all but rows 3 and 4). -/
def poseObserved (k : Fin 6) : Bool := k != 3 && k != 4

/-- Whether a published message is one on the `is_flying` topic. -/
def Output.onIsFlying : Output K → Bool
  | .is_flying _ => true
  | .estimate _ _ => false

/-- An inertial sample whose vertical acceleration magnitude exceeds 11.0. -/
def Event.triggering : Event K → Bool
  | .imu msg _ => decide (11 < |msg.linear_acceleration.z|)
  | _ => false

/-- The body-to-inertial 3-2-1 Euler rotation of the body velocity `(u, v, w)`, as
the specification words the position kinematics (rows north, east, down). -/
def rotation321 (m : Libm K) (x : Vec K) : Fin 3 → K :=
  let u := x U
  let v := x V
  let w := x W
  let cp := m.cos (x PHI)
  let sp := m.sin (x PHI)
  let ct := m.cos (x THETA)
  let st := m.sin (x THETA)
  let cs := m.cos (x PSI)
  let ss := m.sin (x PSI)
  ![ct*cs*u + (sp*st*cs - cp*ss)*v + (cp*st*cs + sp*ss)*w,
    ct*ss*u + (sp*st*ss + cp*cs)*v + (cp*st*ss - sp*cs)*w,
    -st*u + sp*ct*v + cp*ct*w]

/-! ## Concrete inputs (rational arithmetic) -/

/-- A stand-in for `<cmath>` over `ℚ` that agrees with the real functions at angle zero. -/
def demoLibm : Libm ℚ := ⟨fun _ => 1, fun _ => 0, fun _ => 0⟩

/-- A freshly constructed filter: zero state, identity covariance, zero process
noise, identity measurement noises, `alpha = 0.2`. -/
def demoGround : mocapFilter ℚ := construct (1/5) 0 1 0 1 1 0 0 0 0

/-- The filter `demoGround` once flying. -/
def demoFlying : mocapFilter ℚ := { demoGround with flying := true }

/-- A flying filter with all noise matrices zero, zero state, identity covariance. -/
def demoNoiseless : mocapFilter ℚ :=
  { construct (1/5) 0 1 0 0 0 0 0 0 0 with flying := true }

/-- An inertial sample at rest attitude with vertical acceleration `az`. -/
def demoImu (az : ℚ) : Imu ℚ := ⟨⟨0, 0, az⟩, ⟨0, 0, 0⟩, 0, 0, 0⟩

/-- A pose sample one unit north of the origin, level attitude. -/
def demoPose : TransformStamped ℚ := ⟨⟨1, 0, 0⟩, 0, 0, 0⟩

/-- The pose sample of the initialisation scenario of the specification. -/
def demoPoseInit : TransformStamped ℚ := ⟨⟨1, 2, 3⟩, 0.1, 0.2, 0.3⟩

/-- A symmetric positive semi-definite covariance in which roll is correlated with
the north position. -/
def demoCrossP : Mat ℚ :=
  Matrix.of fun i j => if i = j ∨ (i = PN ∧ j = PHI) ∨ (i = PHI ∧ j = PN) then 1 else 0

/-- A flying filter with covariance `demoCrossP`, zero state and identity noises. -/
def demoCross : mocapFilter ℚ :=
  { construct (1/5) 0 demoCrossP 0 1 1 0 0 0 0 with flying := true }

/-- The inverse of the innovation covariance of `updateMocap` on `demoCross`. -/
def demoCrossB : Matrix (Fin 6) (Fin 6) ℚ :=
  Matrix.diagonal fun k => if poseObserved k = true then 1/2 else 1

/-- A run on the ground, a take-off sample, and further callbacks in flight. -/
def demoEvents : List (Event ℚ) :=
  [.imu (demoImu 5) 1, .mocap demoPose, .imu (demoImu (-12)) 2, .predictTimer 3,
   .publishTimer 4, .imu (demoImu 20) 5]

/-! ## Further observers and concrete inputs -/

/-- A matrix is symmetric positive semi-definite: `vᵀ M v ≥ 0` for every `v`. -/
def IsPSD {n : Nat} (M : Matrix (Fin n) (Fin n) K) : Prop :=
  M.IsSymm ∧ ∀ v : Fin n → K, 0 ≤ Matrix.dotProduct v (M.mulVec v)

/-- A matrix is symmetric positive definite: `vᵀ M v > 0` for every `v ≠ 0`. -/
def IsPD {n : Nat} (M : Matrix (Fin n) (Fin n) K) : Prop :=
  M.IsSymm ∧ ∀ v : Fin n → K, v ≠ 0 → 0 < Matrix.dotProduct v (M.mulVec v)

/-- An inertial sample whose only non-zero reading is the roll rate `gx`. -/
def demoGyro (gx : ℚ) : Imu ℚ := ⟨⟨0, 0, 0⟩, ⟨gx, 0, 0⟩, 0, 0, 0⟩

/-- A flying filter with zero covariance and zero measurement noises, so that both
innovation covariances are the zero matrix. -/
def demoSingular : mocapFilter ℚ :=
  { construct (1/5) 0 0 0 0 0 0 0 0 0 with flying := true }

/-- The successive `updateIMU` calls on a sequence of inertial samples. -/
def updateIMUs (s : mocapFilter K) : List (Imu K) → mocapFilter K
  | [] => s
  | msg :: rest => updateIMUs (updateIMU s msg) rest

/-! ## The low-pass filter in IEEE 754 binary64 arithmetic

`double` values are represented by the rational numbers they denote (the sign of
zero is not represented); `none` stands for a result that overflows to infinity.
Every arithmetic operation of the source is followed by one rounding. -/

/-- Round to the nearest integer, ties to the even one. -/
def roundHalfEven (s : ℚ) : ℤ :=
  if s - ⌊s⌋ < 1/2 then ⌊s⌋
  else if 1/2 < s - ⌊s⌋ then ⌊s⌋ + 1
  else if ⌊s⌋ % 2 = 0 then ⌊s⌋ else ⌊s⌋ + 1

/-- The exponent of the unit in the last place of the binary64 format at `q`: 53
significant bits, and never below the subnormal exponent -1074. -/
def ulpExp (q : ℚ) : ℤ := max (Int.log 2 |q| - 52) (-1074)

/-- IEEE 754 binary64 rounding of the exact result `q` of an operation (round to
nearest, ties to even); `none` when the rounded value is not finite. -/
def round64 (q : ℚ) : Option ℚ :=
  if q = 0 then some 0
  else
    let r : ℚ := (roundHalfEven (q / 2 ^ ulpExp q) : ℚ) * 2 ^ ulpExp q
    if |r| < 2 ^ (1024 : ℤ) then some r else none

/-- `mocapFilter::LPF` (lines 302-305) as the program computes it on `double`s:
`alpha_*yn`, `1-alpha_`, `(1-alpha_)*un` and the sum are each rounded (no fused
multiply-add). -/
def LPF64 (alpha yn un : ℚ) : Option ℚ :=
  (round64 (alpha * yn)).bind fun t1 =>
  (round64 (1 - alpha)).bind fun om =>
  (round64 (om * un)).bind fun t2 =>
  round64 (t1 + t2)

/-- The `double` nearest to the default `alpha` 0.2 (line 13). -/
def alpha64 : ℚ := 3602879701896397 / 2 ^ 54

/-! # Theorems -/

section
open Matrix

/-! ## The library inverse -/

theorem inverse_of_mul_eq_one {n : Nat} (S B : Matrix (Fin n) (Fin n) K) (h : S * B = 1) :
    inverse S = some B := by
  have hdet : S.det ≠ 0 := by
    intro h0
    have := congrArg Matrix.det h
    rw [Matrix.det_mul, h0, zero_mul, Matrix.det_one] at this
    exact zero_ne_one this
  have h1 : S⁻¹ = B := Matrix.inv_eq_right_inv h
  have h2 : S⁻¹ = S.det⁻¹ • S.adjugate := by
    rw [Matrix.inv_def, Ring.inverse_eq_inv']
  simp [inverse, hdet, ← h2, h1]

theorem inverse_of_nonsingular {n : Nat} (S : Matrix (Fin n) (Fin n) K) (h : nonsingular S) :
    ∃ B, inverse S = some B ∧ S * B = 1 ∧ B * S = 1 := by
  unfold nonsingular at h
  have hu : IsUnit S.det := isUnit_iff_ne_zero.mpr h
  have h2 : S⁻¹ = S.det⁻¹ • S.adjugate := by
    rw [Matrix.inv_def, Ring.inverse_eq_inv']
  refine ⟨S⁻¹, ?_, Matrix.mul_nonsing_inv S hu, Matrix.nonsing_inv_mul S hu⟩
  simp [inverse, h, h2]

theorem inverse_of_det_eq_zero {n : Nat} (S : Matrix (Fin n) (Fin n) K) (h : S.det = 0) :
    inverse S = none := by
  simp [inverse, h]

theorem inverse_eq_some {n : Nat} (S B : Matrix (Fin n) (Fin n) K) (h : inverse S = some B) :
    S.det ≠ 0 ∧ S * B = 1 ∧ B * S = 1 := by
  by_cases h0 : S.det = 0
  · rw [inverse_of_det_eq_zero S h0] at h; cases h
  · obtain ⟨B1, hB, h1, h2⟩ := inverse_of_nonsingular S h0
    rw [hB] at h; cases h
    exact ⟨h0, h1, h2⟩

theorem inverse_symm {n : Nat} (S B : Matrix (Fin n) (Fin n) K) (hS : S.IsSymm)
    (h : inverse S = some B) : B.IsSymm := by
  obtain ⟨-, h1, h2⟩ := inverse_eq_some S B h
  have h3 : B.transpose * S = 1 := by
    have := congrArg Matrix.transpose h1
    rwa [Matrix.transpose_mul, Matrix.transpose_one, hS.eq] at this
  unfold Matrix.IsSymm
  calc B.transpose = B.transpose * (S * B) := by rw [h1, Matrix.mul_one]
    _ = (B.transpose * S) * B := by rw [Matrix.mul_assoc]
    _ = B := by rw [h3, Matrix.one_mul]

/-! ## The two observation matrices -/

theorem imuC_apply (i : Fin 3) (j : Fin NUM_STATES) :
    (imuC : Matrix _ _ K) i j = if j = attIdx i then 1 else 0 := by
  fin_cases i <;> fin_cases j <;> rfl

theorem imuC_mulVec (x : Vec K) : (imuC : Matrix _ _ K).mulVec x = fun i => x (attIdx i) := by
  ext i
  simp only [Matrix.mulVec, Matrix.dotProduct, imuC_apply, ite_mul, one_mul, zero_mul,
    Finset.sum_ite_eq', Finset.mem_univ, if_true]

theorem imuC_mul {n : Nat} (M : Matrix (Fin NUM_STATES) (Fin n) K) :
    (imuC : Matrix _ _ K) * M = Matrix.of fun i j => M (attIdx i) j := by
  ext i j
  simp only [Matrix.mul_apply, imuC_apply, ite_mul, one_mul, zero_mul,
    Finset.sum_ite_eq', Finset.mem_univ, if_true, Matrix.of_apply]

theorem mul_imuC_transpose {n : Nat} (M : Matrix (Fin n) (Fin NUM_STATES) K) :
    M * (imuC : Matrix _ _ K).transpose = Matrix.of fun i j => M i (attIdx j) := by
  ext i j
  simp only [Matrix.mul_apply, Matrix.transpose_apply, imuC_apply, mul_ite, mul_one, mul_zero,
    Finset.sum_ite_eq', Finset.mem_univ, if_true, Matrix.of_apply]

theorem imuC_innovation_cov (P : Mat K) :
    (imuC : Matrix _ _ K) * P * (imuC : Matrix _ _ K).transpose
      = P.submatrix attIdx attIdx := by
  rw [mul_imuC_transpose, imuC_mul]; rfl

theorem mocapC_apply (k : Fin 6) (j : Fin NUM_STATES) :
    (mocapC : Matrix _ _ K) k j = if j = poseIdx k ∧ poseObserved k = true then 1 else 0 := by
  fin_cases k <;> fin_cases j <;> rfl

theorem mocapC_mulVec (x : Vec K) :
    (mocapC : Matrix _ _ K).mulVec x
      = fun k => if poseObserved k = true then x (poseIdx k) else 0 := by
  ext k
  simp only [Matrix.mulVec, Matrix.dotProduct, mocapC_apply, ite_mul, one_mul, zero_mul]
  by_cases h : poseObserved k = true <;> simp [h]

theorem mocapC_mul {n : Nat} (M : Matrix (Fin NUM_STATES) (Fin n) K) :
    (mocapC : Matrix _ _ K) * M
      = Matrix.of fun k j => if poseObserved k = true then M (poseIdx k) j else 0 := by
  ext k j
  simp only [Matrix.mul_apply, mocapC_apply, ite_mul, one_mul, zero_mul, Matrix.of_apply]
  by_cases h : poseObserved k = true <;> simp [h]

theorem mul_mocapC_transpose {n : Nat} (M : Matrix (Fin n) (Fin NUM_STATES) K) :
    M * (mocapC : Matrix _ _ K).transpose
      = Matrix.of fun i k => if poseObserved k = true then M i (poseIdx k) else 0 := by
  ext i k
  simp only [Matrix.mul_apply, Matrix.transpose_apply, mocapC_apply, mul_ite, mul_one, mul_zero,
    Matrix.of_apply]
  by_cases h : poseObserved k = true <;> simp [h]

/-! ## Closed forms of the two corrections -/

theorem updateIMU_of_inverse (s : mocapFilter K) (msg : Imu K) (x : Vec K)
    (P : Mat K) (B : Matrix (Fin 3) (Fin 3) K) (hx : s.x_hat = some x) (hP : s.P = some P)
    (hB : inverse (s.R_IMU + imuC * P * (imuC : Matrix _ _ K).transpose) = some B) :
    (updateIMU s msg).x_hat
      = some (x + (P * (imuC : Matrix _ _ K).transpose * B).mulVec
          (imuY msg - (imuC : Matrix _ _ K).mulVec x)) ∧
    (updateIMU s msg).P
      = some ((1 - P * (imuC : Matrix _ _ K).transpose * B * imuC) * P) := by
  simp [updateIMU, hx, hP, hB]

theorem updateIMU_of_singular (s : mocapFilter K) (msg : Imu K)
    (h : ∀ P, s.P = some P →
      (s.R_IMU + imuC * P * (imuC : Matrix _ _ K).transpose).det = 0) :
    (updateIMU s msg).x_hat = none ∧ (updateIMU s msg).P = none := by
  cases hP : s.P with
  | none => simp [updateIMU, hP]
  | some P => simp [updateIMU, hP, inverse_of_det_eq_zero _ (h P hP)]

theorem updateMocap_of_inverse (s : mocapFilter K) (msg : TransformStamped K) (x : Vec K)
    (P : Mat K) (B : Matrix (Fin 6) (Fin 6) K) (hx : s.x_hat = some x) (hP : s.P = some P)
    (hB : inverse (s.R_Mocap + mocapC * P * (mocapC : Matrix _ _ K).transpose) = some B) :
    (updateMocap s msg).x_hat
      = some (x + (P * (mocapC : Matrix _ _ K).transpose * B).mulVec
          (mocapY msg - (mocapC : Matrix _ _ K).mulVec x)) ∧
    (updateMocap s msg).P
      = some ((1 - P * (mocapC : Matrix _ _ K).transpose * B * mocapC) * P) := by
  simp [updateMocap, hx, hP, hB]

theorem updateMocap_of_singular (s : mocapFilter K) (msg : TransformStamped K)
    (h : ∀ P, s.P = some P →
      (s.R_Mocap + mocapC * P * (mocapC : Matrix _ _ K).transpose).det = 0) :
    (updateMocap s msg).x_hat = none ∧ (updateMocap s msg).P = none := by
  cases hP : s.P with
  | none => simp [updateMocap, hP]
  | some P => simp [updateMocap, hP, inverse_of_det_eq_zero _ (h P hP)]

/-- The covariance correction `(I - L C) P` with `L = P Cᵀ B` keeps a symmetric
`P` symmetric when `B` is symmetric. -/
theorem correction_symm {k : Nat} (C : Matrix (Fin k) (Fin NUM_STATES) K) (P : Mat K)
    (B : Matrix (Fin k) (Fin k) K) (hP : P.IsSymm) (hB : B.IsSymm) :
    ((1 - P * C.transpose * B * C) * P).IsSymm := by
  unfold Matrix.IsSymm
  simp only [Matrix.sub_mul, Matrix.one_mul, Matrix.transpose_sub, Matrix.transpose_mul,
    Matrix.transpose_transpose, hP.eq, hB.eq, Matrix.mul_assoc]

/-- With zero measurement noise the innovation covariance of the pose correction
has a zero row (row 3), hence is singular. -/
theorem mocap_innovation_cov_singular (R : Matrix (Fin 6) (Fin 6) K) (hR : R = 0) (P : Mat K) :
    (R + mocapC * P * (mocapC : Matrix _ _ K).transpose).det = 0 := by
  apply Matrix.det_eq_zero_of_row_eq_zero 3
  intro j
  rw [hR, zero_add, Matrix.mul_assoc, mocapC_mul]
  simp [poseObserved]

theorem updateMocap_of_R_zero (s : mocapFilter K) (msg : TransformStamped K)
    (hR : s.R_Mocap = 0) :
    (updateMocap s msg).x_hat = none ∧ (updateMocap s msg).P = none :=
  updateMocap_of_singular s msg (fun P _ => mocap_innovation_cov_singular _ hR P)

theorem updateIMU_of_R_zero (s : mocapFilter K) (msg : Imu K) (x : Vec K)
    (P : Mat K) (B : Matrix (Fin 3) (Fin 3) K) (hR : s.R_IMU = 0) (hx : s.x_hat = some x)
    (hP : s.P = some P) (hB : inverse (P.submatrix attIdx attIdx) = some B) :
    (updateIMU s msg).x_hat
      = some (x + (P * (imuC : Matrix _ _ K).transpose * B).mulVec
          (imuY msg - (imuC : Matrix _ _ K).mulVec x)) ∧
    (updateIMU s msg).P
      = some ((1 - P * (imuC : Matrix _ _ K).transpose * B * imuC) * P) := by
  apply updateIMU_of_inverse s msg x P B hx hP
  rw [hR, zero_add, imuC_innovation_cov]
  exact hB

/-- The covariance propagation of `predictStep` keeps a symmetric `P` symmetric. -/
theorem propagation_symm (A P Q : Mat K) (dt : K) (hP : P.IsSymm) (hQ : Q.IsSymm) :
    (P + dt • (A * P + P * A.transpose + Q)).IsSymm := by
  unfold Matrix.IsSymm
  simp only [Matrix.transpose_add, Matrix.transpose_smul, Matrix.transpose_mul,
    Matrix.transpose_transpose, hP.eq, hQ.eq]
  rw [add_comm (P * A.transpose) (A * P)]

/-- The innovation covariance `R + C P Cᵀ` is symmetric when `R` and `P` are. -/
theorem innovation_cov_symm {k : Nat} (C : Matrix (Fin k) (Fin NUM_STATES) K) (P : Mat K)
    (R : Matrix (Fin k) (Fin k) K) (hP : P.IsSymm) (hR : R.IsSymm) :
    (R + C * P * C.transpose).IsSymm := by
  unfold Matrix.IsSymm
  simp only [Matrix.transpose_add, Matrix.transpose_mul, Matrix.transpose_transpose, hP.eq,
    hR.eq, Matrix.mul_assoc]

/-! ## Facts about the concrete inputs -/

theorem demoCross_S :
    demoCross.R_Mocap + mocapC * demoCrossP * (mocapC : Matrix _ _ ℚ).transpose
      = Matrix.diagonal fun k => if poseObserved k = true then 2 else 1 := by
  rw [mul_mocapC_transpose, mocapC_mul]
  ext i j
  fin_cases i <;> fin_cases j <;>
    simp +decide [demoCross, construct, demoCrossP, poseObserved, poseIdx, Matrix.one_apply] <;>
    norm_num

theorem demoCross_inverse :
    inverse (demoCross.R_Mocap + mocapC * demoCrossP * (mocapC : Matrix _ _ ℚ).transpose)
      = some demoCrossB := by
  apply inverse_of_mul_eq_one
  rw [demoCross_S, demoCrossB, Matrix.diagonal_mul_diagonal]
  have hd : (fun k : Fin 6 => (if poseObserved k = true then (2 : ℚ) else 1)
      * (if poseObserved k = true then 1/2 else 1)) = fun _ => 1 := by
    funext k
    by_cases h : poseObserved k = true <;> simp [h]
  rw [hd]
  exact Matrix.diagonal_one

theorem demoFlying_mocap_det :
    nonsingular
      (demoFlying.R_Mocap + mocapC * (1 : Mat ℚ) * (mocapC : Matrix _ _ ℚ).transpose) := by
  unfold nonsingular
  have h : demoFlying.R_Mocap + mocapC * (1 : Mat ℚ) * (mocapC : Matrix _ _ ℚ).transpose
      = Matrix.diagonal fun k => if poseObserved k = true then 2 else 1 := by
    rw [mul_mocapC_transpose, mocapC_mul]
    ext i j
    fin_cases i <;> fin_cases j <;>
      simp +decide [demoFlying, demoGround, construct, poseObserved, poseIdx,
        Matrix.one_apply] <;>
      norm_num
  rw [h, Matrix.det_diagonal]
  simp +decide [Fin.prod_univ_succ, poseObserved]

theorem attIdx_injective : Function.Injective attIdx := by
  intro a b h
  fin_cases a <;> fin_cases b <;> first | rfl | (exact absurd h (by decide))

theorem one_attitude_block_det :
    nonsingular ((1 : Mat K).submatrix ![PHI, THETA, PSI] ![PHI, THETA, PSI]) := by
  unfold nonsingular
  rw [show (![PHI, THETA, PSI] : Fin 3 → Fin NUM_STATES) = attIdx from rfl,
    Matrix.submatrix_one attIdx attIdx_injective, Matrix.det_one]
  exact one_ne_zero

theorem one_row_PHI :
    (1 : Mat K) PHI PN = 0 ∧ (1 : Mat K) PHI PE = 0 ∧ (1 : Mat K) PHI PD = 0 ∧
      (1 : Mat K) PHI PSI = 0 := by
  refine ⟨?_, ?_, ?_, ?_⟩ <;> exact Matrix.one_apply_ne (by decide)

/-! ## Flight detection -/

@[simp] theorem updateIMU_flying (s : mocapFilter K) (msg : Imu K) :
    (updateIMU s msg).flying = s.flying := rfl

@[simp] theorem updateIMU_previous_predict_time (s : mocapFilter K) (msg : Imu K) :
    (updateIMU s msg).previous_predict_time = s.previous_predict_time := rfl

@[simp] theorem updateMocap_flying (s : mocapFilter K) (msg : TransformStamped K) :
    (updateMocap s msg).flying = s.flying := rfl

@[simp] theorem initializeX_flying (s : mocapFilter K) (msg : TransformStamped K) :
    (initializeX s msg).flying = s.flying := rfl

@[simp] theorem predictStep_flying (m : Libm K) (G : K) (s : mocapFilter K) (now : K) :
    (predictStep m G s now).flying = s.flying := rfl

theorem eleven_lit : (11.0 : K) = 11 := by norm_num

theorem imuCallback_of_trigger (s : mocapFilter K) (msg : Imu K) (now : K)
    (hfly : s.flying = false) (h : 11 < |msg.linear_acceleration.z|) :
    imuCallback s msg now
      = (updateIMU { s with flying := true, previous_predict_time := now } msg,
         [Output.is_flying true]) := by
  simp [imuCallback, hfly, eleven_lit, h]

theorem imuCallback_of_not_trigger (s : mocapFilter K) (msg : Imu K) (now : K)
    (hfly : s.flying = false) (h : ¬ 11 < |msg.linear_acceleration.z|) :
    imuCallback s msg now = (s, []) := by
  simp [imuCallback, hfly, eleven_lit, h]

theorem imuCallback_of_flying (s : mocapFilter K) (msg : Imu K) (now : K)
    (hfly : s.flying = true) :
    imuCallback s msg now = (updateIMU s msg, []) := by
  simp [imuCallback, hfly]

theorem step_of_flying (m : Libm K) (G : K) (s : mocapFilter K) (e : Event K)
    (hfly : s.flying = true) :
    (step m G s e).1.flying = true ∧ (step m G s e).2.countP Output.onIsFlying = 0 := by
  cases e with
  | imu msg now => simp [step, imuCallback_of_flying s msg now hfly, hfly]
  | mocap msg => simp [step, mocapCallback, hfly]
  | predictTimer now => simp [step, predictTimerCallback, hfly]
  | publishTimer now =>
    simp [step, publishTimerCallback, hfly, publishEstimate, Output.onIsFlying]

theorem step_of_not_flying (m : Libm K) (G : K) (s : mocapFilter K) (e : Event K)
    (hfly : s.flying = false) :
    ((step m G s e).1.flying = true ↔ e.triggering = true) ∧
    (step m G s e).2.countP Output.onIsFlying = (if e.triggering = true then 1 else 0) := by
  cases e with
  | imu msg now =>
    by_cases h : 11 < |msg.linear_acceleration.z|
    · simp [step, imuCallback_of_trigger s msg now hfly h, Event.triggering, h,
        Output.onIsFlying]
    · simp [step, imuCallback_of_not_trigger s msg now hfly h, Event.triggering, h, hfly]
  | mocap msg => simp [step, mocapCallback, hfly, Event.triggering]
  | predictTimer now => simp [step, predictTimerCallback, hfly, Event.triggering]
  | publishTimer now =>
    simp [step, publishTimerCallback, hfly, publishEstimate, Output.onIsFlying,
      Event.triggering]

theorem run_append (m : Libm K) (G : K) (s : mocapFilter K) (pre post : List (Event K)) :
    run m G s (pre ++ post)
      = ((run m G (run m G s pre).1 post).1,
         (run m G s pre).2 ++ (run m G (run m G s pre).1 post).2) := by
  induction pre generalizing s with
  | nil => simp [run]
  | cons e es ih => simp [run, ih, List.append_assoc]

theorem run_of_flying (m : Libm K) (G : K) (s : mocapFilter K) (evs : List (Event K))
    (hfly : s.flying = true) :
    (run m G s evs).1.flying = true ∧ (run m G s evs).2.countP Output.onIsFlying = 0 := by
  induction evs generalizing s with
  | nil => simp [run, hfly]
  | cons e es ih =>
    obtain ⟨h1, h2⟩ := step_of_flying m G s e hfly
    obtain ⟨h3, h4⟩ := ih (step m G s e).1 h1
    simp [run, h3, h4, h2, List.countP_append]

theorem run_of_not_flying (m : Libm K) (G : K) (s : mocapFilter K) (evs : List (Event K))
    (hfly : s.flying = false) :
    ((run m G s evs).1.flying = true ↔ evs.any Event.triggering = true) ∧
    (run m G s evs).2.countP Output.onIsFlying
      = (if evs.any Event.triggering = true then 1 else 0) := by
  induction evs generalizing s with
  | nil => simp [run, hfly]
  | cons e es ih =>
    obtain ⟨h1, h2⟩ := step_of_not_flying m G s e hfly
    by_cases ht : e.triggering = true
    · have hf := h1.mpr ht
      obtain ⟨h3, h4⟩ := run_of_flying m G (step m G s e).1 es hf
      simp [run, h3, h4, h2, ht, List.countP_append]
    · have hf : (step m G s e).1.flying = false := by
        cases hb : (step m G s e).1.flying with
        | false => rfl
        | true => exact absurd (h1.mp hb) ht
      obtain ⟨h3, h4⟩ := ih (step m G s e).1 hf
      simp [run, h3, h4, h2, ht, List.countP_append]

/-! ## The claims -/

/-- C1: for a flying filter with state `x` and covariance `P`, the predict timer runs
`predictStep`, which yields `x1 = x + dt * f(x)` with `dt = now - previous_predict_time`,
`P1 = P + dt * (A * P + P * Aᵀ + Q)` with `A = dfdx(x1)` taken at the propagated state,
and sets `previous_predict_time` to `now`. -/
theorem predictStep_spec (m : Libm K) (G : K) (s : mocapFilter K) (x : Vec K) (P : Mat K)
    (now : K) (hfly : s.flying = true) (hx : s.x_hat = some x) (hP : s.P = some P) :
    (predictTimerCallback m G s now).1 = predictStep m G s now ∧
    (predictStep m G s now).x_hat
      = some (x + (now - s.previous_predict_time) • f m G s x) ∧
    (predictStep m G s now).P
      = some (P + (now - s.previous_predict_time) •
          (dfdx m G s (x + (now - s.previous_predict_time) • f m G s x) * P
            + P * (dfdx m G s (x + (now - s.previous_predict_time) • f m G s x)).transpose
            + s.Q)) ∧
    (predictStep m G s now).previous_predict_time = now := by
  refine ⟨?_, ?_, ?_, rfl⟩
  · simp [predictTimerCallback, hfly]
  · simp [predictStep, hx]
  · simp [predictStep, hx, hP]

theorem predictStep_spec_witness :
    demoFlying.flying = true ∧ demoFlying.x_hat = some 0 ∧ demoFlying.P = some 1 ∧
    (predictTimerCallback demoLibm 1 demoFlying 2).1 = predictStep demoLibm 1 demoFlying 2 ∧
    (predictStep demoLibm 1 demoFlying 2).x_hat
      = some (0 + (2 - demoFlying.previous_predict_time) • f demoLibm 1 demoFlying 0) ∧
    (predictStep demoLibm 1 demoFlying 2).P
      = some (1 + (2 - demoFlying.previous_predict_time) •
          (dfdx demoLibm 1 demoFlying
              (0 + (2 - demoFlying.previous_predict_time) • f demoLibm 1 demoFlying 0) * 1
            + 1 * (dfdx demoLibm 1 demoFlying
              (0 + (2 - demoFlying.previous_predict_time) • f demoLibm 1 demoFlying 0)).transpose
            + demoFlying.Q)) ∧
    (predictStep demoLibm 1 demoFlying 2).previous_predict_time = 2 :=
  ⟨rfl, rfl, rfl, predictStep_spec demoLibm 1 demoFlying 0 1 2 rfl rfl rfl⟩

/-- C2 (evaluation at the failing inputs): at level attitude with body velocity
`(0, 0, 1)`, `dfdx` holds 0 in row `PN`, column `THETA`, while the partial derivative
of the first component of `f` with respect to `THETA` is 1; with body velocity
`(0, 1, 0)`, `dfdx` holds 1 in row `PD`, column `PHI`, while the partial derivative of
the third component of `f` with respect to `PHI` is -1. -/
theorem dfdx_not_jacobian (G : ℝ) (s : mocapFilter ℝ) :
    dfdx ⟨Real.cos, Real.sin, Real.tan⟩ G s ![0, 0, 0, 0, 0, 1, 0, 0, 0] PN THETA = 0 ∧
    HasDerivAt
      (fun t => f ⟨Real.cos, Real.sin, Real.tan⟩ G s
        (Function.update ![0, 0, 0, 0, 0, 1, 0, 0, 0] THETA t) PN)
      1 ((![0, 0, 0, 0, 0, 1, 0, 0, 0] : Vec ℝ) THETA) ∧
    ¬ HasDerivAt
      (fun t => f ⟨Real.cos, Real.sin, Real.tan⟩ G s
        (Function.update ![0, 0, 0, 0, 0, 1, 0, 0, 0] THETA t) PN)
      (dfdx ⟨Real.cos, Real.sin, Real.tan⟩ G s ![0, 0, 0, 0, 0, 1, 0, 0, 0] PN THETA)
      ((![0, 0, 0, 0, 0, 1, 0, 0, 0] : Vec ℝ) THETA) ∧
    dfdx ⟨Real.cos, Real.sin, Real.tan⟩ G s ![0, 0, 0, 0, 1, 0, 0, 0, 0] PD PHI = 1 ∧
    HasDerivAt
      (fun t => f ⟨Real.cos, Real.sin, Real.tan⟩ G s
        (Function.update ![0, 0, 0, 0, 1, 0, 0, 0, 0] PHI t) PD)
      (-1) ((![0, 0, 0, 0, 1, 0, 0, 0, 0] : Vec ℝ) PHI) ∧
    ¬ HasDerivAt
      (fun t => f ⟨Real.cos, Real.sin, Real.tan⟩ G s
        (Function.update ![0, 0, 0, 0, 1, 0, 0, 0, 0] PHI t) PD)
      (dfdx ⟨Real.cos, Real.sin, Real.tan⟩ G s ![0, 0, 0, 0, 1, 0, 0, 0, 0] PD PHI)
      ((![0, 0, 0, 0, 1, 0, 0, 0, 0] : Vec ℝ) PHI) := by
  have a1 : dfdx ⟨Real.cos, Real.sin, Real.tan⟩ G s ![0, 0, 0, 0, 0, 1, 0, 0, 0] PN THETA
      = 0 := by
    show -Real.sin (0:ℝ) * Real.cos (0:ℝ) * 0 + (Real.sin (0:ℝ) * Real.cos (0:ℝ)
      * Real.cos (0:ℝ)) * 0 + (Real.cos (0:ℝ) * Real.cos (0:ℝ) * Real.sin (0:ℝ)) * 1 = 0
    simp
  have af : (fun t => f ⟨Real.cos, Real.sin, Real.tan⟩ G s
        (Function.update ![0, 0, 0, 0, 0, 1, 0, 0, 0] THETA t) PN) = fun t => Real.sin t := by
    funext t
    show Real.cos t * Real.cos (0:ℝ) * 0
      + (Real.sin (0:ℝ) * Real.sin t * Real.cos (0:ℝ) - Real.cos (0:ℝ) * Real.sin (0:ℝ)) * 0
      + (Real.cos (0:ℝ) * Real.sin t * Real.cos (0:ℝ) + Real.sin (0:ℝ) * Real.sin (0:ℝ)) * 1
      = Real.sin t
    simp
  have a2 : HasDerivAt (fun t => Real.sin t) 1 (0:ℝ) := by
    have := Real.hasDerivAt_sin 0
    simpa using this
  have b1 : dfdx ⟨Real.cos, Real.sin, Real.tan⟩ G s ![0, 0, 0, 0, 1, 0, 0, 0, 0] PD PHI
      = 1 := by
    show Real.cos (0:ℝ) * Real.cos (0:ℝ) * 1 - Real.sin (0:ℝ) * Real.cos (0:ℝ) * 0 = 1
    simp
  have bf : (fun t => f ⟨Real.cos, Real.sin, Real.tan⟩ G s
        (Function.update ![0, 0, 0, 0, 1, 0, 0, 0, 0] PHI t) PD) = fun t => - Real.sin t := by
    funext t
    show Real.sin (0:ℝ) * 0 - Real.sin t * Real.cos (0:ℝ) * 1
      - Real.cos t * Real.cos (0:ℝ) * 0 = - Real.sin t
    simp
  have b2 : HasDerivAt (fun t => - Real.sin t) (-1) (0:ℝ) := by
    have := (Real.hasDerivAt_sin 0).neg
    simpa using this
  refine ⟨a1, ?_, ?_, b1, ?_, ?_⟩
  · rw [af]; exact a2
  · rw [af, a1]
    intro h3
    have := HasDerivAt.unique a2 h3
    norm_num at this
  · rw [bf]; exact b2
  · rw [bf, b1]
    intro h3
    have := HasDerivAt.unique b2 h3
    norm_num at this

/-- The position rows of `f` against the 3-2-1 rotation: the north row agrees, the
east row differs in the coefficient of `u`, the down row has the opposite sign. -/
theorem f_position_rows (m : Libm K) (G : K) (s : mocapFilter K) (x : Vec K) :
    f m G s x PN = rotation321 m x 0 ∧
    f m G s x PE = rotation321 m x 1 + (m.cos (x PHI) - m.cos (x THETA)) * m.sin (x PSI) * x U ∧
    f m G s x PD = - rotation321 m x 2 := by
  refine ⟨rfl, ?_, ?_⟩
  · show m.cos (x PHI) * m.sin (x PSI) * x U + _ + _ = (m.cos (x THETA) * m.sin (x PSI) * x U + _ + _) + _
    ring
  · show m.sin (x THETA) * x U - m.sin (x PHI) * m.cos (x THETA) * x V
        - m.cos (x PHI) * m.cos (x THETA) * x W
      = -(-m.sin (x THETA) * x U + m.sin (x PHI) * m.cos (x THETA) * x V
        + m.cos (x PHI) * m.cos (x THETA) * x W)
    ring

/-- C3 (evaluation at the failing inputs): at level attitude with body velocity
`(0, 0, 1)` the third component of `f` is -1 while the 3-2-1 rotation gives +1; at
roll `π`, pitch 0, yaw `π/2` with body velocity `(1, 0, 0)` the second component of
`f` is -1 while the rotation gives +1. -/
theorem f_position_rates_differ (G : ℝ) (s : mocapFilter ℝ) :
    f ⟨Real.cos, Real.sin, Real.tan⟩ G s ![0, 0, 0, 0, 0, 1, 0, 0, 0] PD = -1 ∧
    rotation321 ⟨Real.cos, Real.sin, Real.tan⟩ ![0, 0, 0, 0, 0, 1, 0, 0, 0] 2 = 1 ∧
    f ⟨Real.cos, Real.sin, Real.tan⟩ G s ![0, 0, 0, 1, 0, 0, Real.pi, 0, Real.pi / 2] PE = -1 ∧
    rotation321 ⟨Real.cos, Real.sin, Real.tan⟩ ![0, 0, 0, 1, 0, 0, Real.pi, 0, Real.pi / 2] 1
      = 1 := by
  refine ⟨?_, ?_, ?_, ?_⟩
  · show Real.sin (0:ℝ) * 0 - Real.sin (0:ℝ) * Real.cos (0:ℝ) * 0
      - Real.cos (0:ℝ) * Real.cos (0:ℝ) * 1 = -1
    simp
  · show -Real.sin (0:ℝ) * 0 + Real.sin (0:ℝ) * Real.cos (0:ℝ) * 0
      + Real.cos (0:ℝ) * Real.cos (0:ℝ) * 1 = 1
    simp
  · show Real.cos Real.pi * Real.sin (Real.pi / 2) * 1
      + (Real.sin Real.pi * Real.sin (0:ℝ) * Real.sin (Real.pi / 2)
          + Real.cos Real.pi * Real.cos (Real.pi / 2)) * 0
      + (Real.cos Real.pi * Real.sin (0:ℝ) * Real.sin (Real.pi / 2)
          - Real.sin Real.pi * Real.cos (Real.pi / 2)) * 0 = -1
    simp
  · show Real.cos (0:ℝ) * Real.sin (Real.pi / 2) * 1
      + (Real.sin Real.pi * Real.sin (0:ℝ) * Real.sin (Real.pi / 2)
          + Real.cos Real.pi * Real.cos (Real.pi / 2)) * 0
      + (Real.cos Real.pi * Real.sin (0:ℝ) * Real.sin (Real.pi / 2)
          - Real.sin Real.pi * Real.cos (Real.pi / 2)) * 0 = 1
    simp

/-- C4 counterexample: on `demoCross` (zero state, roll correlated with north
position, identity noise) a pose sample one unit north moves `PHI` from 0 to 1/2. -/
theorem updateMocap_changes_PHI :
    ∃ x0 x1, demoCross.x_hat = some x0 ∧ (updateMocap demoCross demoPose).x_hat = some x1 ∧
      x0 PHI = 0 ∧ x1 PHI = 1/2 ∧ x1 PHI ≠ x0 PHI := by
  have h := (updateMocap_of_inverse demoCross demoPose 0 demoCrossP _ rfl rfl
    demoCross_inverse).1
  have h2 : (0 + (demoCrossP * (mocapC : Matrix _ _ ℚ).transpose * demoCrossB).mulVec
        (mocapY demoPose - (mocapC : Matrix _ _ ℚ).mulVec 0) : Vec ℚ) PHI = 1/2 := by
    rw [mul_mocapC_transpose, demoCrossB]
    simp +decide [Matrix.mulVec, Matrix.dotProduct, Matrix.mul_diagonal, Fin.sum_univ_succ,
      mocapY, demoPose, demoCrossP, poseObserved, poseIdx]
  refine ⟨0, _, rfl, h, rfl, h2, ?_⟩
  rw [h2]; norm_num

/-- C4 (amended): when the innovation covariance is invertible, `updateMocap`
leaves component `i` of the state unchanged provided row `i` of `P` is zero in the
columns `PN`, `PE`, `PD`, `PSI`; this covers `PHI` and `THETA` when roll and pitch
are uncorrelated with the observed components. -/
theorem updateMocap_keeps_uncorrelated (s : mocapFilter K) (msg : TransformStamped K)
    (x : Vec K) (P : Mat K) (i : Fin NUM_STATES) (hx : s.x_hat = some x) (hP : s.P = some P)
    (hdet : nonsingular (s.R_Mocap + mocapC * P * (mocapC : Matrix _ _ K).transpose))
    (hrow : P i PN = 0 ∧ P i PE = 0 ∧ P i PD = 0 ∧ P i PSI = 0) :
    ∃ x1, (updateMocap s msg).x_hat = some x1 ∧ x1 i = x i := by
  obtain ⟨B, hB, -, -⟩ := inverse_of_nonsingular _ hdet
  refine ⟨_, (updateMocap_of_inverse s msg x P B hx hP hB).1, ?_⟩
  have hobs : ∀ k : Fin 6, poseObserved k = true → P i (poseIdx k) = 0 := by
    obtain ⟨h0, h1, h2, h5⟩ := hrow
    intro k
    fin_cases k <;> intro hk <;>
      first | exact h0 | exact h1 | exact h2 | exact h5 | exact absurd hk (by decide)
  have hz : ∀ k : Fin 6, (P * (mocapC : Matrix _ _ K).transpose) i k = 0 := by
    intro k
    rw [mul_mocapC_transpose, Matrix.of_apply]
    split_ifs with hk
    · exact hobs k hk
    · rfl
  have hL : ∀ j : Fin 6, (P * (mocapC : Matrix _ _ K).transpose * B) i j = 0 := by
    intro j
    rw [Matrix.mul_apply]
    simp [hz]
  simp [Matrix.mulVec, Matrix.dotProduct, hL]

theorem updateMocap_keeps_uncorrelated_witness :
    demoFlying.x_hat = some 0 ∧ demoFlying.P = some 1 ∧
    nonsingular (demoFlying.R_Mocap + mocapC * (1 : Mat ℚ) * (mocapC : Matrix _ _ ℚ).transpose) ∧
    ((1 : Mat ℚ) PHI PN = 0 ∧ (1 : Mat ℚ) PHI PE = 0 ∧ (1 : Mat ℚ) PHI PD = 0 ∧
      (1 : Mat ℚ) PHI PSI = 0) ∧
    ∃ x1, (updateMocap demoFlying demoPose).x_hat = some x1 ∧ x1 PHI = (0 : Vec ℚ) PHI :=
  ⟨rfl, rfl, demoFlying_mocap_det,
   one_row_PHI,
   updateMocap_keeps_uncorrelated demoFlying demoPose 0 1 PHI rfl rfl demoFlying_mocap_det
     one_row_PHI⟩

/-- C5: with `R_IMU = 0` and an invertible attitude block of `P`, `updateIMU`
produces a state whose `PHI`, `THETA`, `PSI` are exactly the measured roll, pitch
and yaw. -/
theorem updateIMU_exact_when_R_zero (s : mocapFilter K) (msg : Imu K) (x : Vec K) (P : Mat K)
    (hR : s.R_IMU = 0) (hx : s.x_hat = some x) (hP : s.P = some P)
    (hdet : nonsingular (P.submatrix ![PHI, THETA, PSI] ![PHI, THETA, PSI])) :
    ∃ x1, (updateIMU s msg).x_hat = some x1 ∧
      x1 PHI = msg.roll ∧ x1 THETA = msg.pitch ∧ x1 PSI = msg.yaw := by
  obtain ⟨B, hB, hSB, -⟩ := inverse_of_nonsingular (P.submatrix attIdx attIdx) hdet
  refine ⟨_, (updateIMU_of_R_zero s msg x P B hR hx hP hB).1, ?_⟩
  have key : (imuC : Matrix _ _ K).mulVec
      (x + (P * (imuC : Matrix _ _ K).transpose * B).mulVec
        (imuY msg - (imuC : Matrix _ _ K).mulVec x)) = imuY msg := by
    rw [Matrix.mulVec_add, Matrix.mulVec_mulVec, ← Matrix.mul_assoc, ← Matrix.mul_assoc,
      imuC_innovation_cov, hSB, Matrix.one_mulVec]
    abel
  rw [imuC_mulVec] at key
  exact ⟨congrFun key 0, congrFun key 1, congrFun key 2⟩

theorem updateIMU_exact_when_R_zero_witness :
    demoNoiseless.R_IMU = 0 ∧ demoNoiseless.x_hat = some 0 ∧ demoNoiseless.P = some 1 ∧
    nonsingular ((1 : Mat ℚ).submatrix ![PHI, THETA, PSI] ![PHI, THETA, PSI]) ∧
    ∃ x1, (updateIMU demoNoiseless ⟨⟨0, 0, 12⟩, ⟨0, 0, 0⟩, 1, 2, 3⟩).x_hat = some x1 ∧
      x1 PHI = 1 ∧ x1 THETA = 2 ∧ x1 PSI = 3 :=
  ⟨rfl, rfl, rfl, one_attitude_block_det,
   updateIMU_exact_when_R_zero demoNoiseless ⟨⟨0, 0, 12⟩, ⟨0, 0, 0⟩, 1, 2, 3⟩ 0 1 rfl rfl rfl
     one_attitude_block_det⟩

/-- C8: while not flying, `mocapCallback` sets the state to
`[tx, -ty, -tz, 0, 0, 0, roll, -pitch, -yaw]` whatever it was before, leaves `P` and
the flying flag unchanged and publishes nothing. -/
theorem mocapCallback_notFlying (s : mocapFilter K) (msg : TransformStamped K)
    (hfly : s.flying = false) :
    (mocapCallback s msg).1.x_hat
      = some ![msg.origin.x, -msg.origin.y, -msg.origin.z, 0, 0, 0,
               msg.roll, -msg.pitch, -msg.yaw] ∧
    (mocapCallback s msg).1.P = s.P ∧
    (mocapCallback s msg).1.flying = s.flying ∧
    (mocapCallback s msg).2 = [] := by
  simp [mocapCallback, hfly, initializeX]

theorem mocapCallback_notFlying_witness :
    demoGround.flying = false ∧
    (mocapCallback demoGround demoPoseInit).1.x_hat
      = some ![1, -2, -3, 0, 0, 0, 0.1, -0.2, -0.3] ∧
    (mocapCallback demoGround demoPoseInit).1.P = demoGround.P ∧
    (mocapCallback demoGround demoPoseInit).1.flying = demoGround.flying ∧
    (mocapCallback demoGround demoPoseInit).2 = [] :=
  ⟨rfl, mocapCallback_notFlying demoGround demoPoseInit rfl⟩

/-- C9: while not flying, `imuCallback` makes the filter flying if and only if the
magnitude of the vertical acceleration is strictly greater than 11 (so -12 triggers,
11 and -11 do not); on the transition `previous_predict_time` becomes the transition
instant `now` and the next `predictStep`, at time `t1`, advances the state by
`(t1 - now) * f(x)`. -/
theorem imuCallback_takeoff (s : mocapFilter K) (msg : Imu K) (now : K)
    (hfly : s.flying = false) :
    ((imuCallback s msg now).1.flying = true ↔ 11 < |msg.linear_acceleration.z|) ∧
    (msg.linear_acceleration.z = -12 → (imuCallback s msg now).1.flying = true) ∧
    (msg.linear_acceleration.z = 11 → (imuCallback s msg now).1.flying = false) ∧
    (msg.linear_acceleration.z = -11 → (imuCallback s msg now).1.flying = false) ∧
    (11 < |msg.linear_acceleration.z| →
      (imuCallback s msg now).1.previous_predict_time = now ∧
      ∀ (m : Libm K) (G t1 : K),
        (predictStep m G (imuCallback s msg now).1 t1).x_hat
          = (imuCallback s msg now).1.x_hat.map
              (fun x => x + (t1 - now) • f m G (imuCallback s msg now).1 x)) := by
  have key : (imuCallback s msg now).1.flying = true ↔ 11 < |msg.linear_acceleration.z| := by
    by_cases h : 11 < |msg.linear_acceleration.z|
    · simp [imuCallback_of_trigger s msg now hfly h, h]
    · simp [imuCallback_of_not_trigger s msg now hfly h, h, hfly]
  refine ⟨key, ?_, ?_, ?_, ?_⟩
  · intro h; rw [key, h]; norm_num
  · intro h
    have : ¬ (11 < |msg.linear_acceleration.z|) := by rw [h]; norm_num
    rw [← key] at this; simpa using this
  · intro h
    have : ¬ (11 < |msg.linear_acceleration.z|) := by rw [h]; norm_num
    rw [← key] at this; simpa using this
  · intro h
    rw [imuCallback_of_trigger s msg now hfly h]
    refine ⟨rfl, ?_⟩
    intro m G t1
    simp [predictStep]

theorem imuCallback_takeoff_witness :
    demoGround.flying = false ∧
    (((imuCallback demoGround (demoImu (-12)) 7).1.flying = true
        ↔ 11 < |(demoImu (-12)).linear_acceleration.z|) ∧
    ((demoImu (-12)).linear_acceleration.z = -12 →
      (imuCallback demoGround (demoImu (-12)) 7).1.flying = true) ∧
    ((demoImu (-12)).linear_acceleration.z = 11 →
      (imuCallback demoGround (demoImu (-12)) 7).1.flying = false) ∧
    ((demoImu (-12)).linear_acceleration.z = -11 →
      (imuCallback demoGround (demoImu (-12)) 7).1.flying = false) ∧
    (11 < |(demoImu (-12)).linear_acceleration.z| →
      (imuCallback demoGround (demoImu (-12)) 7).1.previous_predict_time = 7 ∧
      ∀ (m : Libm ℚ) (G t1 : ℚ),
        (predictStep m G (imuCallback demoGround (demoImu (-12)) 7).1 t1).x_hat
          = (imuCallback demoGround (demoImu (-12)) 7).1.x_hat.map
              (fun x => x + (t1 - 7) • f m G (imuCallback demoGround (demoImu (-12)) 7).1 x))) :=
  ⟨rfl, imuCallback_takeoff demoGround (demoImu (-12)) 7 rfl⟩

/-- C10: over every finite sequence of callbacks from a not-flying filter, the flying
flag, once true, stays true; the `is_flying` topic is published at most once in total,
exactly once if and only if the sequence holds a triggering inertial sample, in the
very callback that turns the flag from false to true, and the message carries `true`. -/
theorem flying_monotone_published_once (m : Libm K) (G : K) (s : mocapFilter K)
    (evs : List (Event K)) (hfly : s.flying = false) :
    (∀ pre post, evs = pre ++ post → (run m G s pre).1.flying = true →
        (run m G s evs).1.flying = true) ∧
    (run m G s evs).2.countP Output.onIsFlying ≤ 1 ∧
    (run m G s evs).2.countP Output.onIsFlying
        = (if evs.any Event.triggering = true then 1 else 0) ∧
    (∀ pre e post, evs = pre ++ e :: post →
        (step m G (run m G s pre).1 e).2.countP Output.onIsFlying
          = (if (run m G s pre).1.flying = false ∧
                (step m G (run m G s pre).1 e).1.flying = true then 1 else 0)) ∧
    (∀ o ∈ (run m G s evs).2, o.onIsFlying = true → o = Output.is_flying true) := by
  obtain ⟨h1, h2⟩ := run_of_not_flying m G s evs hfly
  refine ⟨?_, ?_, h2, ?_, ?_⟩
  · intro pre post he hpre
    rw [he, run_append]
    exact (run_of_flying m G _ post hpre).1
  · rw [h2]; split_ifs <;> simp
  · intro pre e post _
    cases hb : (run m G s pre).1.flying with
    | true =>
      simp [(step_of_flying m G _ e hb).2]
    | false =>
      obtain ⟨h3, h4⟩ := step_of_not_flying m G _ e hb
      rw [h4]
      simp [h3]
  · intro o ho hb
    have : ∀ (s : mocapFilter K) (evs : List (Event K)), ∀ o ∈ (run m G s evs).2,
        o.onIsFlying = true → o = Output.is_flying true := by
      intro s evs
      induction evs generalizing s with
      | nil => simp [run]
      | cons e es ih =>
        intro o ho hb
        simp only [run, List.mem_append] at ho
        rcases ho with ho | ho
        · cases e with
          | imu msg now =>
            simp only [step, imuCallback] at ho
            split_ifs at ho <;> simp_all [Output.onIsFlying]
          | mocap msg =>
            simp only [step, mocapCallback] at ho
            split_ifs at ho <;> simp_all
          | predictTimer now =>
            simp only [step, predictTimerCallback] at ho
            split_ifs at ho <;> simp_all
          | publishTimer now =>
            simp [step, publishTimerCallback, publishEstimate] at ho
            subst ho
            simp [Output.onIsFlying] at hb
        · exact ih _ o ho hb
    exact this s evs o ho hb

theorem flying_monotone_published_once_witness :
    demoGround.flying = false ∧
    ((∀ pre post, demoEvents = pre ++ post → (run demoLibm 1 demoGround pre).1.flying = true →
        (run demoLibm 1 demoGround demoEvents).1.flying = true) ∧
    (run demoLibm 1 demoGround demoEvents).2.countP Output.onIsFlying ≤ 1 ∧
    (run demoLibm 1 demoGround demoEvents).2.countP Output.onIsFlying
        = (if demoEvents.any Event.triggering = true then 1 else 0) ∧
    (∀ pre e post, demoEvents = pre ++ e :: post →
        (step demoLibm 1 (run demoLibm 1 demoGround pre).1 e).2.countP Output.onIsFlying
          = (if (run demoLibm 1 demoGround pre).1.flying = false ∧
                (step demoLibm 1 (run demoLibm 1 demoGround pre).1 e).1.flying = true
             then 1 else 0)) ∧
    (∀ o ∈ (run demoLibm 1 demoGround demoEvents).2,
        o.onIsFlying = true → o = Output.is_flying true)) :=
  ⟨rfl, flying_monotone_published_once demoLibm 1 demoGround demoEvents rfl⟩

/-! ## The low-pass channels -/

/-- What `updateIMU` leaves in the filtered members and in its static variables. -/
theorem updateIMU_channels (s : mocapFilter K) (msg : Imu K) :
    (updateIMU s msg).alpha = s.alpha ∧
    (updateIMU s msg).p
      = LPF s ((s.statics.map Statics.prev_gx).getD msg.angular_velocity.x)
          msg.angular_velocity.x ∧
    (updateIMU s msg).q
      = LPF s ((s.statics.map Statics.prev_gy).getD msg.angular_velocity.y)
          msg.angular_velocity.y ∧
    (updateIMU s msg).r
      = LPF s ((s.statics.map Statics.prev_gz).getD msg.angular_velocity.z)
          msg.angular_velocity.z ∧
    (updateIMU s msg).filt_az = LPF s s.filt_az msg.linear_acceleration.z ∧
    (updateIMU s msg).statics.map Statics.prev_gx = some msg.angular_velocity.x ∧
    (updateIMU s msg).statics.map Statics.prev_gy = some msg.angular_velocity.y ∧
    (updateIMU s msg).statics.map Statics.prev_gz = some msg.angular_velocity.z := by
  cases h : s.statics <;> simp [updateIMU, h, LPF]

/-- From the second sample on, the filtered roll rate is the blend of the previous
raw reading with the current raw reading. -/
theorem updateIMU_p_second (s : mocapFilter K) (m1 m2 : Imu K) :
    (updateIMU (updateIMU s m1) m2).p
      = s.alpha * m1.angular_velocity.x + (1 - s.alpha) * m2.angular_velocity.x := by
  obtain ⟨ha, -, -, -, -, hs, -, -⟩ := updateIMU_channels s m1
  obtain ⟨-, hp, -⟩ := updateIMU_channels (updateIMU s m1) m2
  rw [hp, hs]
  simp [LPF, ha]

/-- C11 (evaluation at the failing input): with `alpha = 1/5` and roll-rate readings
10, 0, 0 the filtered rate `p` is 2 after the second sample and 0 after the third,
whereas the recursive filter of the claim gives `alpha * 2 + (1 - alpha) * 0 = 2/5`. -/
theorem gyro_filter_not_recursive :
    demoFlying.alpha = 1/5 ∧ demoFlying.statics = none ∧
    (updateIMUs demoFlying [demoGyro 10, demoGyro 0]).p = 2 ∧
    (updateIMUs demoFlying [demoGyro 10, demoGyro 0, demoGyro 0]).p = 0 ∧
    (updateIMUs demoFlying [demoGyro 10, demoGyro 0, demoGyro 0]).p
      ≠ demoFlying.alpha * (updateIMUs demoFlying [demoGyro 10, demoGyro 0]).p
          + (1 - demoFlying.alpha) * (demoGyro 0).angular_velocity.x := by
  have h2 : (updateIMUs demoFlying [demoGyro 10, demoGyro 0]).p = 2 := by
    show (updateIMU (updateIMU demoFlying (demoGyro 10)) (demoGyro 0)).p = 2
    rw [updateIMU_p_second]
    norm_num [demoFlying, demoGround, construct, demoGyro]
  have h3 : (updateIMUs demoFlying [demoGyro 10, demoGyro 0, demoGyro 0]).p = 0 := by
    show (updateIMU (updateIMU (updateIMU demoFlying (demoGyro 10)) (demoGyro 0))
      (demoGyro 0)).p = 0
    rw [updateIMU_p_second]
    norm_num [demoGyro]
  refine ⟨rfl, rfl, h2, h3, ?_⟩
  rw [h3, h2]
  norm_num [demoFlying, demoGround, construct, demoGyro]

/-- On the first sample (static variables not yet initialised) the three rates are
seeded with the raw readings, and `filt_az` is the blend of the value the member held
before with the raw vertical acceleration. -/
theorem updateIMU_first_sample (s : mocapFilter K) (msg : Imu K) (h : s.statics = none) :
    (updateIMU s msg).p = msg.angular_velocity.x ∧
    (updateIMU s msg).q = msg.angular_velocity.y ∧
    (updateIMU s msg).r = msg.angular_velocity.z ∧
    (updateIMU s msg).filt_az
      = s.alpha * s.filt_az + (1 - s.alpha) * msg.linear_acceleration.z := by
  obtain ⟨-, hp, hq, hr, hz, -⟩ := updateIMU_channels s msg
  rw [hp, hq, hr, hz, h]
  simp only [Option.map_none', Option.getD_none, LPF]
  refine ⟨by ring, by ring, by ring, trivial⟩

/-- C12 (evaluation at the failing input): on the first sample, with `alpha = 1/5`,
the rates `p`, `q`, `r` equal the raw readings 3, 4, 5, but `filt_az`, which held 0
before, becomes -48/5 for the raw vertical acceleration -12: it is blended with the
prior value of the member, not seeded. -/
theorem first_sample_filt_az_not_seeded :
    demoFlying.statics = none ∧ demoFlying.alpha = 1/5 ∧ demoFlying.filt_az = 0 ∧
    (updateIMU demoFlying ⟨⟨0, 0, -12⟩, ⟨3, 4, 5⟩, 0, 0, 0⟩).p = 3 ∧
    (updateIMU demoFlying ⟨⟨0, 0, -12⟩, ⟨3, 4, 5⟩, 0, 0, 0⟩).q = 4 ∧
    (updateIMU demoFlying ⟨⟨0, 0, -12⟩, ⟨3, 4, 5⟩, 0, 0, 0⟩).r = 5 ∧
    (updateIMU demoFlying ⟨⟨0, 0, -12⟩, ⟨3, 4, 5⟩, 0, 0, 0⟩).filt_az = -48/5 ∧
    (updateIMU demoFlying ⟨⟨0, 0, -12⟩, ⟨3, 4, 5⟩, 0, 0, 0⟩).filt_az ≠ -12 := by
  obtain ⟨hp, hq, hr, hz⟩ :=
    updateIMU_first_sample demoFlying ⟨⟨0, 0, -12⟩, ⟨3, 4, 5⟩, 0, 0, 0⟩ rfl
  have hz2 : (updateIMU demoFlying ⟨⟨0, 0, -12⟩, ⟨3, 4, 5⟩, 0, 0, 0⟩).filt_az = -48/5 := by
    rw [hz]
    norm_num [demoFlying, demoGround, construct]
  refine ⟨rfl, rfl, rfl, hp, hq, hr, hz2, ?_⟩
  rw [hz2]
  norm_num

/-! ## Evaluating the binary64 rounding -/

theorem roundHalfEven_below (s : ℚ) (n : ℤ) (h1 : (n : ℚ) ≤ s) (h2 : s < n + 1/2) :
    roundHalfEven s = n := by
  have hfl : ⌊s⌋ = n := Int.floor_eq_iff.mpr ⟨h1, by linarith⟩
  unfold roundHalfEven
  rw [hfl, if_pos (by linarith)]

theorem roundHalfEven_above (s : ℚ) (n : ℤ) (h1 : (n : ℚ) + 1/2 < s) (h2 : s < n + 1) :
    roundHalfEven s = n + 1 := by
  have hfl : ⌊s⌋ = n := Int.floor_eq_iff.mpr ⟨by linarith, h2⟩
  unfold roundHalfEven
  rw [hfl, if_neg (by linarith), if_pos (by linarith)]

theorem roundHalfEven_tie_odd (s : ℚ) (n : ℤ) (h : s = n + 1/2) (hn : n % 2 = 1) :
    roundHalfEven s = n + 1 := by
  have hfl : ⌊s⌋ = n := Int.floor_eq_iff.mpr ⟨by linarith, by linarith⟩
  unfold roundHalfEven
  rw [hfl, if_neg (by linarith), if_neg (by linarith), if_neg (by omega)]

theorem roundHalfEven_tie_even (s : ℚ) (n : ℤ) (h : s = n + 1/2) (hn : n % 2 = 0) :
    roundHalfEven s = n := by
  have hfl : ⌊s⌋ = n := Int.floor_eq_iff.mpr ⟨by linarith, by linarith⟩
  unfold roundHalfEven
  rw [hfl, if_neg (by linarith), if_neg (by linarith), if_pos hn]

theorem log_two_eval (q : ℚ) (e : ℤ) (h1 : (2 : ℚ) ^ e ≤ |q|) (h2 : |q| < (2 : ℚ) ^ (e + 1)) :
    Int.log 2 |q| = e := by
  have hpos : 0 < |q| := lt_of_lt_of_le (by positivity) h1
  have h2lt : (1 : ℕ) < 2 := by norm_num
  apply le_antisymm
  · have := (Int.lt_zpow_iff_log_lt h2lt hpos).mp (by exact_mod_cast h2)
    omega
  · exact (Int.zpow_le_iff_le_log h2lt hpos).mp (by exact_mod_cast h1)

/-- How `round64` evaluates: with `2^e ≤ |q| < 2^(e+1)`, the scaled value
`q / 2^u`, `u = max (e - 52) (-1074)`, is rounded to the integer `n`. -/
theorem round64_eval (q : ℚ) (e n : ℤ) (h1 : (2 : ℚ) ^ e ≤ |q|)
    (h2 : |q| < (2 : ℚ) ^ (e + 1))
    (hn : roundHalfEven (q / 2 ^ max (e - 52) (-1074)) = n)
    (hr : |(n : ℚ) * 2 ^ max (e - 52) (-1074)| < 2 ^ (1024 : ℤ)) :
    round64 q = some ((n : ℚ) * 2 ^ max (e - 52) (-1074)) := by
  have hq : q ≠ 0 := by
    intro h0
    rw [h0, abs_zero] at h1
    exact absurd h1 (not_le.mpr (by positivity))
  have hu : ulpExp q = max (e - 52) (-1074) := by
    unfold ulpExp
    rw [log_two_eval q e h1 h2]
  unfold round64
  rw [if_neg hq]
  simp only [hu, hn]
  rw [if_pos hr]

theorem round64_zero : round64 0 = some 0 := by
  simp [round64]

theorem round64_one : round64 1 = some 1 := by
  have h := round64_eval 1 0 (2 ^ 52) (by norm_num) (by norm_num)
    (roundHalfEven_below _ _ (by norm_num) (by norm_num)) (by norm_num)
  rw [h]
  norm_num

theorem round64_three : round64 3 = some 3 := by
  have h := round64_eval 3 1 (3 * 2 ^ 51) (by norm_num) (by norm_num)
    (roundHalfEven_below _ _ (by norm_num) (by norm_num)) (by norm_num)
  rw [h]
  norm_num

theorem round64_fifth : round64 (1/5) = some alpha64 := by
  have h := round64_eval (1/5) (-3) 7205759403792794 (by norm_num [abs_of_pos])
    (by norm_num [abs_of_pos])
    (roundHalfEven_above _ 7205759403792793 (by norm_num) (by norm_num))
    (by norm_num [abs_of_pos])
  rw [h]
  norm_num [alpha64]

theorem round64_alpha_mul_three :
    round64 (alpha64 * 3) = some (5404319552844596 / 2 ^ 53) := by
  have h := round64_eval (alpha64 * 3) (-1) 5404319552844596
    (by norm_num [alpha64, abs_of_pos]) (by norm_num [alpha64, abs_of_pos])
    (roundHalfEven_tie_odd _ 5404319552844595 (by norm_num [alpha64]) (by norm_num))
    (by norm_num [abs_of_pos])
  rw [h]
  norm_num

theorem round64_one_sub_alpha :
    round64 (1 - alpha64) = some (7205759403792794 / 2 ^ 53) := by
  have h := round64_eval (1 - alpha64) (-1) 7205759403792794
    (by norm_num [alpha64, abs_of_pos]) (by norm_num [alpha64, abs_of_pos])
    (roundHalfEven_tie_odd _ 7205759403792793 (by norm_num [alpha64]) (by norm_num))
    (by norm_num [abs_of_pos])
  rw [h]
  norm_num

theorem round64_complement_mul_three :
    round64 (7205759403792794 / 2 ^ 53 * 3) = some (5404319552844596 / 2 ^ 51) := by
  have h := round64_eval (7205759403792794 / 2 ^ 53 * 3) 1 5404319552844596
    (by norm_num [abs_of_pos]) (by norm_num [abs_of_pos])
    (roundHalfEven_tie_odd _ 5404319552844595 (by norm_num) (by norm_num))
    (by norm_num [abs_of_pos])
  rw [h]
  norm_num

theorem round64_sum :
    round64 (5404319552844596 / 2 ^ 53 + 5404319552844596 / 2 ^ 51)
      = some (6755399441055745 / 2 ^ 51) := by
  have h := round64_eval (5404319552844596 / 2 ^ 53 + 5404319552844596 / 2 ^ 51) 1
    6755399441055745
    (by norm_num [abs_of_pos]) (by norm_num [abs_of_pos])
    (roundHalfEven_below _ _ (by norm_num) (by norm_num))
    (by norm_num [abs_of_pos])
  rw [h]
  norm_num

/-- The value the program computes for `LPF(3, 3)` at `alpha = 0.2`. -/
theorem LPF64_three : LPF64 alpha64 3 3 = some (6755399441055745 / 2 ^ 51) := by
  simp only [LPF64, round64_alpha_mul_three, round64_one_sub_alpha,
    round64_complement_mul_three, round64_sum, Option.some_bind]

theorem LPF64_alpha_one (yn un : ℚ) (hy : round64 yn = some yn) :
    LPF64 1 yn un = some yn := by
  simp [LPF64, hy, round64_zero]

theorem LPF64_alpha_zero (yn un : ℚ) (hu : round64 un = some un) :
    LPF64 0 yn un = some un := by
  simp [LPF64, hu, round64_zero, round64_one]

/-- C13 counterexample: in the program's `double` arithmetic, with `alpha` the double
nearest to 0.2 and `yn = un = 3`, `LPF` returns `6755399441055745 / 2^51`
(3.0000000000000004), which is neither 3 nor the exact value of
`alpha * 3 + (1 - alpha) * 3`. -/
theorem LPF_doubles_not_identity :
    round64 (1/5) = some alpha64 ∧ round64 3 = some 3 ∧
    LPF64 alpha64 3 3 = some (6755399441055745 / 2 ^ 51) ∧
    LPF64 alpha64 3 3 ≠ some 3 ∧
    LPF64 alpha64 3 3 ≠ some (alpha64 * 3 + (1 - alpha64) * 3) := by
  refine ⟨round64_fifth, round64_three, LPF64_three, ?_, ?_⟩
  · rw [LPF64_three]
    norm_num
  · rw [LPF64_three]
    norm_num [alpha64]

/-- C13 (amended): in exact arithmetic `LPF(yn, un) = alpha * yn + (1 - alpha) * un`,
so that `alpha = 1` returns `yn`, `alpha = 0` returns `un` and `LPF(u, u) = u` for
every `alpha`.  In the program's `double` arithmetic `alpha = 1` still returns `yn`
and `alpha = 0` still returns `un` exactly, while `LPF(u, u)` equals `u` only up to
rounding: at `alpha = 0.2`, `u = 3` the result is `6755399441055745 / 2^51`. -/
theorem LPF_exact_and_rounded (s : mocapFilter K) (yn un : K) (a b : ℚ) :
    LPF s yn un = s.alpha * yn + (1 - s.alpha) * un ∧
    (s.alpha = 1 → LPF s yn un = yn) ∧
    (s.alpha = 0 → LPF s yn un = un) ∧
    LPF s un un = un ∧
    (round64 a = some a → LPF64 1 a b = some a) ∧
    (round64 b = some b → LPF64 0 a b = some b) ∧
    LPF64 alpha64 3 3 = some (6755399441055745 / 2 ^ 51) := by
  refine ⟨rfl, ?_, ?_, ?_, LPF64_alpha_one a b, LPF64_alpha_zero a b, LPF64_three⟩
  · intro h; simp [LPF, h]
  · intro h; simp [LPF, h]
  · simp only [LPF]; ring

theorem LPF_exact_and_rounded_witness :
    (({ demoGround with alpha := 1 } : mocapFilter ℚ).alpha = 1 ∧
      ({ demoGround with alpha := 0 } : mocapFilter ℚ).alpha = 0 ∧
      round64 3 = some 3) ∧
    LPF { demoGround with alpha := 1 } 3 7 = 3 ∧
    LPF { demoGround with alpha := 0 } 3 7 = 7 ∧
    LPF demoGround 3 3 = 3 ∧
    LPF64 1 3 3 = some 3 ∧
    LPF64 0 3 3 = some 3 :=
  ⟨⟨rfl, rfl, round64_three⟩,
   (LPF_exact_and_rounded { demoGround with alpha := 1 } 3 7 3 3).2.1 rfl,
   (LPF_exact_and_rounded { demoGround with alpha := 0 } 3 7 3 3).2.2.1 rfl,
   (LPF_exact_and_rounded demoGround 3 3 3 3).2.2.2.1,
   (LPF_exact_and_rounded demoGround 3 3 3 3).2.2.2.2.1 round64_three,
   (LPF_exact_and_rounded demoGround 3 3 3 3).2.2.2.2.2.1 round64_three⟩

/-! ## Further facts about the concrete inputs -/

theorem demoFlying_before_zero : (-1 : ℚ) < demoFlying.previous_predict_time := by
  show (-1 : ℚ) < 0
  norm_num

theorem demoFlying_rate_W : f demoLibm 1 demoFlying 0 W ≠ 0 := by
  show (0 : ℚ) * 0 - 0 * 0 + 1 * 1 * 1 + 0 ≠ 0
  norm_num

theorem demoSingular_imu_singular :
    ¬ nonsingular
      (demoSingular.R_IMU + imuC * (0 : Mat ℚ) * (imuC : Matrix _ _ ℚ).transpose) := by
  have h : demoSingular.R_IMU + imuC * (0 : Mat ℚ) * (imuC : Matrix _ _ ℚ).transpose
      = 0 := by
    rw [show demoSingular.R_IMU = 0 from rfl]; simp
  rw [h]
  exact fun hn => hn (Matrix.det_zero ⟨0⟩)

theorem demoShift_agrees (i : Fin NUM_STATES) (h0 : i ≠ PN) (h1 : i ≠ PE) (h2 : i ≠ PD) :
    (![5, 6, 7, 0, 0, 0, 0, 0, 0] : Vec ℚ) i = (0 : Vec ℚ) i := by
  fin_cases i
  · exact absurd rfl h0
  · exact absurd rfl h1
  · exact absurd rfl h2
  all_goals rfl

/-- C14 counterexample: a flying filter at the zero state with filtered roll rate
`p = 1` and `previous_predict_time = 0`; `predictStep` at `now = -1` (so `dt = -1`)
moves `PHI` from 0 to -1. -/
theorem predictStep_negative_dt_moves :
    ∃ x1,
      (predictStep ⟨Real.cos, Real.sin, Real.tan⟩ 1
        { construct (0 : ℝ) 0 1 0 1 1 1 0 0 0 with flying := true } (-1)).x_hat = some x1 ∧
      x1 PHI = -1 ∧ x1 PHI ≠ (0 : Vec ℝ) PHI := by
  refine ⟨_, rfl, ?_, ?_⟩
  · show (0 : ℝ) + (-1 - 0) * (1 + Real.sin (0:ℝ) * Real.tan (0:ℝ) * 0
      + Real.cos (0:ℝ) * Real.tan (0:ℝ) * 0) = -1
    simp
  · show (0 : ℝ) + (-1 - 0) * (1 + Real.sin (0:ℝ) * Real.tan (0:ℝ) * 0
      + Real.cos (0:ℝ) * Real.tan (0:ℝ) * 0) ≠ 0
    simp

/-- C14 (amended): `predictStep` has no check on the elapsed time.  When
`now = previous_predict_time` (`dt = 0`) the state and the covariance are unchanged;
when `now` is earlier (`dt < 0`) the same Euler step is taken, so every component of
the state whose rate `f(x) i` is not zero changes. -/
theorem predictStep_nonpositive_dt (m : Libm K) (G : K) (s : mocapFilter K) (x : Vec K)
    (P : Mat K) (now : K) (hx : s.x_hat = some x) (hP : s.P = some P) :
    (now = s.previous_predict_time →
      (predictStep m G s now).x_hat = some x ∧ (predictStep m G s now).P = some P) ∧
    (now < s.previous_predict_time →
      ∃ x1, (predictStep m G s now).x_hat = some x1 ∧
        ∀ i, f m G s x i ≠ 0 → x1 i ≠ x i) := by
  refine ⟨?_, ?_⟩
  · intro h
    simp [predictStep, hx, hP, h]
  · intro h
    refine ⟨x + (now - s.previous_predict_time) • f m G s x, by simp [predictStep, hx], ?_⟩
    intro i hi
    have hdt : now - s.previous_predict_time ≠ 0 := ne_of_lt (sub_neg.mpr h)
    simp [hdt, hi]

theorem predictStep_nonpositive_dt_witness :
    (demoFlying.x_hat = some 0 ∧ demoFlying.P = some 1 ∧
      (0 : ℚ) = demoFlying.previous_predict_time ∧
      (-1 : ℚ) < demoFlying.previous_predict_time ∧ f demoLibm 1 demoFlying 0 W ≠ 0) ∧
    ((predictStep demoLibm 1 demoFlying 0).x_hat = some 0 ∧
      (predictStep demoLibm 1 demoFlying 0).P = some 1) ∧
    ∃ x1, (predictStep demoLibm 1 demoFlying (-1)).x_hat = some x1 ∧
      x1 W ≠ (0 : Vec ℚ) W :=
  ⟨⟨rfl, rfl, rfl, demoFlying_before_zero, demoFlying_rate_W⟩,
   (predictStep_nonpositive_dt demoLibm 1 demoFlying 0 1 0 rfl rfl).1 rfl,
   let ⟨x1, h1, h2⟩ :=
     (predictStep_nonpositive_dt demoLibm 1 demoFlying 0 1 (-1) rfl rfl).2
       demoFlying_before_zero
   ⟨x1, h1, h2 W demoFlying_rate_W⟩⟩

/-- C15 counterexample: with `P = 0` and zero measurement noises both innovation
covariances are the zero matrix; after `updateIMU`, and after `updateMocap`, the
state and the covariance hold no value instead of their previous values. -/
theorem singular_update_not_skipped :
    demoSingular.x_hat = some 0 ∧ demoSingular.P = some 0 ∧
    demoSingular.R_IMU + imuC * (0 : Mat ℚ) * (imuC : Matrix _ _ ℚ).transpose = 0 ∧
    demoSingular.R_Mocap + mocapC * (0 : Mat ℚ) * (mocapC : Matrix _ _ ℚ).transpose = 0 ∧
    (updateIMU demoSingular (demoImu 0)).x_hat ≠ demoSingular.x_hat ∧
    (updateIMU demoSingular (demoImu 0)).P ≠ demoSingular.P ∧
    (updateMocap demoSingular demoPose).x_hat ≠ demoSingular.x_hat ∧
    (updateMocap demoSingular demoPose).P ≠ demoSingular.P := by
  have hI : demoSingular.R_IMU + imuC * (0 : Mat ℚ) * (imuC : Matrix _ _ ℚ).transpose
      = 0 := by
    rw [show demoSingular.R_IMU = 0 from rfl]; simp
  have hM : demoSingular.R_Mocap + mocapC * (0 : Mat ℚ) * (mocapC : Matrix _ _ ℚ).transpose
      = 0 := by
    rw [show demoSingular.R_Mocap = 0 from rfl]; simp
  have h1 := updateIMU_of_singular demoSingular (demoImu 0) (by
    intro P hP
    have hP0 : P = 0 := (Option.some.inj hP).symm
    rw [hP0, hI]
    exact Matrix.det_zero ⟨0⟩)
  have h2 := updateMocap_of_R_zero demoSingular demoPose rfl
  refine ⟨rfl, rfl, hI, hM, ?_, ?_, ?_, ?_⟩
  · rw [h1.1]; simp [demoSingular, construct]
  · rw [h1.2]; simp [demoSingular, construct]
  · rw [h2.1]; simp [demoSingular, construct]
  · rw [h2.2]; simp [demoSingular, construct]

/-- C15 (amended): neither correction checks the innovation covariance.  When
`R + C P Cᵀ` is singular the inverse has no value and, after the call, neither the
state nor the covariance holds a value; for `updateMocap` this is the case for every
`P` as soon as `R_Mocap = 0`. -/
theorem singular_update_undefined (s : mocapFilter K) (P : Mat K) (hP : s.P = some P) :
    (¬ nonsingular (s.R_IMU + imuC * P * (imuC : Matrix _ _ K).transpose) →
      ∀ msg, (updateIMU s msg).x_hat = none ∧ (updateIMU s msg).P = none) ∧
    (¬ nonsingular (s.R_Mocap + mocapC * P * (mocapC : Matrix _ _ K).transpose) →
      ∀ msg, (updateMocap s msg).x_hat = none ∧ (updateMocap s msg).P = none) ∧
    (s.R_Mocap = 0 →
      ¬ nonsingular (s.R_Mocap + mocapC * P * (mocapC : Matrix _ _ K).transpose)) := by
  refine ⟨?_, ?_, ?_⟩
  · intro h msg
    apply updateIMU_of_singular
    intro P1 hP1
    rw [hP] at hP1
    rw [← Option.some.inj hP1]
    exact not_not.mp h
  · intro h msg
    apply updateMocap_of_singular
    intro P1 hP1
    rw [hP] at hP1
    rw [← Option.some.inj hP1]
    exact not_not.mp h
  · intro hR h
    exact h (mocap_innovation_cov_singular _ hR P)

theorem singular_update_undefined_witness :
    (demoSingular.P = some 0 ∧ demoSingular.R_Mocap = 0 ∧
      ¬ nonsingular
        (demoSingular.R_IMU + imuC * (0 : Mat ℚ) * (imuC : Matrix _ _ ℚ).transpose) ∧
      ¬ nonsingular
        (demoSingular.R_Mocap + mocapC * (0 : Mat ℚ) * (mocapC : Matrix _ _ ℚ).transpose)) ∧
    ((updateIMU demoSingular (demoImu 12)).x_hat = none ∧
      (updateIMU demoSingular (demoImu 12)).P = none) ∧
    ((updateMocap demoSingular demoPose).x_hat = none ∧
      (updateMocap demoSingular demoPose).P = none) :=
  ⟨⟨rfl, rfl, demoSingular_imu_singular,
    (singular_update_undefined demoSingular 0 rfl).2.2 rfl⟩,
   (singular_update_undefined demoSingular 0 rfl).1 demoSingular_imu_singular (demoImu 12),
   (singular_update_undefined demoSingular 0 rfl).2.1
     ((singular_update_undefined demoSingular 0 rfl).2.2 rfl) demoPose⟩

/-- C16: operations outside their flight state.  While not flying the predict timer
changes nothing; while not flying an inertial sample with `|az| ≤ 11` changes nothing
(state, covariance, flag, filtered values, static variables) and publishes nothing;
while flying a pose sample is handled by `updateMocap`, not by `initializeX`. -/
theorem gated_operations (m : Libm K) (G : K) (s : mocapFilter K) :
    (s.flying = false → ∀ now,
      predictTimerCallback m G s now = (s, [])) ∧
    (s.flying = false → ∀ (msg : Imu K) (now : K), |msg.linear_acceleration.z| ≤ 11 →
      imuCallback s msg now = (s, [])) ∧
    (s.flying = true → ∀ msg : TransformStamped K,
      mocapCallback s msg = (updateMocap s msg, [])) := by
  refine ⟨?_, ?_, ?_⟩
  · intro h now
    simp [predictTimerCallback, h]
  · intro h msg now haz
    exact imuCallback_of_not_trigger s msg now h (not_lt.mpr haz)
  · intro h msg
    simp [mocapCallback, h]

theorem gated_operations_witness :
    (demoGround.flying = false ∧ |(demoImu 11).linear_acceleration.z| ≤ 11 ∧
      demoFlying.flying = true) ∧
    predictTimerCallback demoLibm 1 demoGround 3 = (demoGround, []) ∧
    imuCallback demoGround (demoImu 11) 3 = (demoGround, []) ∧
    mocapCallback demoFlying demoPose = (updateMocap demoFlying demoPose, []) :=
  ⟨⟨rfl, by norm_num [demoImu], rfl⟩,
   (gated_operations demoLibm 1 demoGround).1 rfl 3,
   (gated_operations demoLibm 1 demoGround).2.1 rfl (demoImu 11) 3 (by norm_num [demoImu]),
   (gated_operations demoLibm 1 demoFlying).2.2 rfl demoPose⟩

/-- C17: components 3 to 8 of `f(x)` are the body-frame velocity kinematics and the
Euler-rate attitude kinematics of the specification, and `f(x)` does not depend on
`PN`, `PE`, `PD`. -/
theorem f_velocity_attitude_rows (m : Libm K) (G : K) (s : mocapFilter K) (x : Vec K)
    (hct : m.cos (x THETA) ≠ 0) :
    f m G s x U = s.r * x V - s.q * x W - G * m.sin (x THETA) ∧
    f m G s x V = s.p * x W - s.r * x U + G * m.cos (x THETA) * m.sin (x PHI) ∧
    f m G s x W = s.q * x U - s.p * x V + G * m.cos (x THETA) * m.cos (x PHI) + s.filt_az ∧
    f m G s x PHI = s.p + s.q * m.sin (x PHI) * m.tan (x THETA)
        + s.r * m.cos (x PHI) * m.tan (x THETA) ∧
    f m G s x THETA = s.q * m.cos (x PHI) - s.r * m.sin (x PHI) ∧
    f m G s x PSI = s.q * m.sin (x PHI) / m.cos (x THETA)
        + s.r * m.cos (x PHI) / m.cos (x THETA) ∧
    ∀ y : Vec K, (∀ i, i ≠ PN → i ≠ PE → i ≠ PD → y i = x i) → f m G s y = f m G s x := by
  refine ⟨rfl, rfl, rfl, ?_, ?_, ?_, ?_⟩
  · show s.p + m.sin (x PHI) * m.tan (x THETA) * s.q + m.cos (x PHI) * m.tan (x THETA) * s.r
      = _
    ring
  · show m.cos (x PHI) * s.q - m.sin (x PHI) * s.r = _
    ring
  · show m.sin (x PHI) / m.cos (x THETA) * s.q + m.cos (x PHI) / m.cos (x THETA) * s.r = _
    field_simp
    ring
  · intro y h
    have hU : y U = x U := h U (by decide) (by decide) (by decide)
    have hV : y V = x V := h V (by decide) (by decide) (by decide)
    have hW : y W = x W := h W (by decide) (by decide) (by decide)
    have h6 : y PHI = x PHI := h PHI (by decide) (by decide) (by decide)
    have h7 : y THETA = x THETA := h THETA (by decide) (by decide) (by decide)
    have h8 : y PSI = x PSI := h PSI (by decide) (by decide) (by decide)
    simp only [f, hU, hV, hW, h6, h7, h8]

theorem f_velocity_attitude_rows_witness :
    (demoLibm.cos ((0 : Vec ℚ) THETA) ≠ 0 ∧
      ∀ i, i ≠ PN → i ≠ PE → i ≠ PD →
        (![5, 6, 7, 0, 0, 0, 0, 0, 0] : Vec ℚ) i = (0 : Vec ℚ) i) ∧
    f demoLibm 1 demoFlying 0 W
      = demoFlying.q * (0 : Vec ℚ) U - demoFlying.p * (0 : Vec ℚ) V
        + 1 * demoLibm.cos ((0 : Vec ℚ) THETA) * demoLibm.cos ((0 : Vec ℚ) PHI)
        + demoFlying.filt_az ∧
    f demoLibm 1 demoFlying ![5, 6, 7, 0, 0, 0, 0, 0, 0] = f demoLibm 1 demoFlying 0 :=
  ⟨⟨one_ne_zero, demoShift_agrees⟩,
   (f_velocity_attitude_rows demoLibm 1 demoFlying 0 one_ne_zero).2.2.1,
   (f_velocity_attitude_rows demoLibm 1 demoFlying 0 one_ne_zero).2.2.2.2.2.2
     ![5, 6, 7, 0, 0, 0, 0, 0, 0] demoShift_agrees⟩

/-! ## The pose correction and the roll / pitch entries of the measurement -/

/-- For a diagonal `R_Mocap`, column `j` of the inverse `B` of the innovation
covariance `S` is zero outside the diagonal when `j` is one of the unobserved rows
3, 4. -/
theorem mocap_inverse_unobserved_column (R S : Matrix (Fin 6) (Fin 6) K) (P : Mat K)
    (B : Matrix (Fin 6) (Fin 6) K) (hdiag : ∀ i j, i ≠ j → R i j = 0)
    (hS : S = R + mocapC * P * (mocapC : Matrix _ _ K).transpose)
    (hBS : B * S = 1) (k j : Fin 6) (hj : poseObserved j = false) (hkj : k ≠ j) :
    B k j = 0 := by
  have hcol : ∀ l, S l j = if l = j then R j j else 0 := by
    intro l
    rw [hS, Matrix.add_apply, mul_mocapC_transpose, Matrix.of_apply]
    simp only [hj, Bool.false_eq_true, if_false, add_zero]
    by_cases hl : l = j
    · simp [hl]
    · simp [hl, hdiag l j hl]
  have hentry : ∀ a, (B * S) a j = B a j * R j j := by
    intro a
    rw [Matrix.mul_apply]
    simp only [hcol, mul_ite, mul_zero, Finset.sum_ite_eq', Finset.mem_univ, if_true]
  have hjj : B j j * R j j = 1 := by
    rw [← hentry j, hBS, Matrix.one_apply_eq]
  have hR : R j j ≠ 0 := by
    intro h0
    rw [h0, mul_zero] at hjj
    exact zero_ne_one hjj
  have hk : B k j * R j j = 0 := by
    rw [← hentry k, hBS, Matrix.one_apply_ne hkj]
  rcases mul_eq_zero.mp hk with h | h
  · exact h
  · exact absurd h hR

/-- For a diagonal `R_Mocap`, columns 3 and 4 of the gain `L = P Cᵀ B` are zero. -/
theorem mocap_gain_unobserved_column (R S : Matrix (Fin 6) (Fin 6) K) (P : Mat K)
    (B : Matrix (Fin 6) (Fin 6) K) (hdiag : ∀ i j, i ≠ j → R i j = 0)
    (hS : S = R + mocapC * P * (mocapC : Matrix _ _ K).transpose)
    (hBS : B * S = 1) (i : Fin NUM_STATES) (j : Fin 6) (hj : poseObserved j = false) :
    (P * (mocapC : Matrix _ _ K).transpose * B) i j = 0 := by
  rw [Matrix.mul_apply]
  apply Finset.sum_eq_zero
  intro k _
  by_cases hk : poseObserved k = true
  · have hkj : k ≠ j := by
      intro h
      rw [h, hj] at hk
      exact Bool.false_ne_true hk
    rw [mocap_inverse_unobserved_column R S P B hdiag hS hBS k j hj hkj, mul_zero]
  · rw [mul_mocapC_transpose, Matrix.of_apply, if_neg hk, zero_mul]

/-- C18: for a diagonal `R_Mocap` and an invertible innovation covariance, two
`updateMocap` calls from the same state and covariance whose pose samples agree in
translation and yaw produce the same state and the same covariance, whatever their
roll and pitch; columns 3 and 4 of the gain are zero. -/
theorem updateMocap_ignores_roll_pitch (s : mocapFilter K) (x : Vec K) (P : Mat K)
    (msg1 msg2 : TransformStamped K) (hx : s.x_hat = some x) (hP : s.P = some P)
    (hdiag : ∀ i j, i ≠ j → s.R_Mocap i j = 0)
    (hdet : nonsingular (s.R_Mocap + mocapC * P * (mocapC : Matrix _ _ K).transpose))
    (horigin : msg1.origin = msg2.origin) (hyaw : msg1.yaw = msg2.yaw) :
    ∃ (x1 : Vec K) (P1 : Mat K) (L : Matrix (Fin NUM_STATES) (Fin 6) K),
      (updateMocap s msg1).x_hat = some x1 ∧ (updateMocap s msg2).x_hat = some x1 ∧
      (updateMocap s msg1).P = some P1 ∧ (updateMocap s msg2).P = some P1 ∧
      x1 = x + L.mulVec (mocapY msg1 - (mocapC : Matrix _ _ K).mulVec x) ∧
      ∀ i, L i 3 = 0 ∧ L i 4 = 0 := by
  obtain ⟨B, hB, -, hBS⟩ := inverse_of_nonsingular _ hdet
  obtain ⟨hx1, hP1⟩ := updateMocap_of_inverse s msg1 x P B hx hP hB
  obtain ⟨hx2, hP2⟩ := updateMocap_of_inverse s msg2 x P B hx hP hB
  have hL := mocap_gain_unobserved_column s.R_Mocap _ P B hdiag rfl hBS
  refine ⟨_, _, P * (mocapC : Matrix _ _ K).transpose * B, hx1, ?_, hP1, hP2, rfl,
    fun i => ⟨hL i 3 (by decide), hL i 4 (by decide)⟩⟩
  rw [hx2]
  congr 2
  funext i
  simp only [Matrix.mulVec, Matrix.dotProduct]
  apply Finset.sum_congr rfl
  intro j _
  by_cases hj : poseObserved j = true
  · have hy : mocapY msg2 j = mocapY msg1 j := by
      fin_cases j
      · show msg2.origin.x = msg1.origin.x
        rw [horigin]
      · show -msg2.origin.y = -msg1.origin.y
        rw [horigin]
      · show -msg2.origin.z = -msg1.origin.z
        rw [horigin]
      · exact absurd hj (by decide)
      · exact absurd hj (by decide)
      · show -msg2.yaw = -msg1.yaw
        rw [hyaw]
    simp only [Pi.sub_apply, hy]
  · rw [hL i j (by simpa using hj), zero_mul, zero_mul]

theorem updateMocap_ignores_roll_pitch_witness :
    (demoFlying.x_hat = some 0 ∧ demoFlying.P = some 1 ∧
      (∀ i j, i ≠ j → demoFlying.R_Mocap i j = 0) ∧
      nonsingular
        (demoFlying.R_Mocap + mocapC * (1 : Mat ℚ) * (mocapC : Matrix _ _ ℚ).transpose) ∧
      (⟨⟨1, 2, 3⟩, 1/2, 1/3, 1/4⟩ : TransformStamped ℚ).origin
        = (⟨⟨1, 2, 3⟩, 5, 7, 1/4⟩ : TransformStamped ℚ).origin ∧
      (⟨⟨1, 2, 3⟩, 1/2, 1/3, 1/4⟩ : TransformStamped ℚ).yaw
        = (⟨⟨1, 2, 3⟩, 5, 7, 1/4⟩ : TransformStamped ℚ).yaw) ∧
    ∃ (x1 : Vec ℚ) (P1 : Mat ℚ) (L : Matrix (Fin NUM_STATES) (Fin 6) ℚ),
      (updateMocap demoFlying ⟨⟨1, 2, 3⟩, 1/2, 1/3, 1/4⟩).x_hat = some x1 ∧
      (updateMocap demoFlying ⟨⟨1, 2, 3⟩, 5, 7, 1/4⟩).x_hat = some x1 ∧
      (updateMocap demoFlying ⟨⟨1, 2, 3⟩, 1/2, 1/3, 1/4⟩).P = some P1 ∧
      (updateMocap demoFlying ⟨⟨1, 2, 3⟩, 5, 7, 1/4⟩).P = some P1 ∧
      x1 = 0 + L.mulVec (mocapY (⟨⟨1, 2, 3⟩, 1/2, 1/3, 1/4⟩ : TransformStamped ℚ)
        - (mocapC : Matrix _ _ ℚ).mulVec 0) ∧
      ∀ i, L i 3 = 0 ∧ L i 4 = 0 :=
  ⟨⟨rfl, rfl, fun _ _ h => Matrix.one_apply_ne h, demoFlying_mocap_det, rfl, rfl⟩,
   updateMocap_ignores_roll_pitch demoFlying 0 1 ⟨⟨1, 2, 3⟩, 1/2, 1/3, 1/4⟩
     ⟨⟨1, 2, 3⟩, 5, 7, 1/4⟩ rfl rfl (fun _ _ h => Matrix.one_apply_ne h)
     demoFlying_mocap_det rfl rfl⟩

/-! ## Positive semi-definiteness of the corrected covariance -/

theorem IsPD.isPSD {n : Nat} {M : Matrix (Fin n) (Fin n) K} (h : IsPD M) : IsPSD M := by
  refine ⟨h.1, fun v => ?_⟩
  by_cases hv : v = 0
  · simp [hv]
  · exact le_of_lt (h.2 v hv)

/-- The quadratic form of `M N Mᵀ` at `v` is the quadratic form of `N` at `Mᵀ v`. -/
theorem quadratic_form_conj {a b : Nat} (M : Matrix (Fin a) (Fin b) K)
    (N : Matrix (Fin b) (Fin b) K) (v : Fin a → K) :
    Matrix.dotProduct v ((M * N * M.transpose).mulVec v)
      = Matrix.dotProduct (M.transpose.mulVec v) (N.mulVec (M.transpose.mulVec v)) := by
  rw [← Matrix.mulVec_mulVec, ← Matrix.mulVec_mulVec, Matrix.dotProduct_mulVec,
    Matrix.mulVec_transpose]

theorem IsPD.nonsingular {n : Nat} {M : Matrix (Fin n) (Fin n) K} (h : IsPD M) :
    nonsingular M := by
  intro hdet
  obtain ⟨v, hv, hMv⟩ := Matrix.exists_mulVec_eq_zero_iff.mpr hdet
  have := h.2 v hv
  rw [hMv, Matrix.dotProduct_zero] at this
  exact lt_irrefl _ this

theorem isPSD_one {n : Nat} : IsPSD (1 : Matrix (Fin n) (Fin n) K) := by
  refine ⟨Matrix.isSymm_one, fun v => ?_⟩
  rw [Matrix.one_mulVec]
  exact Finset.sum_nonneg fun i _ => mul_self_nonneg (v i)

theorem isPD_one {n : Nat} : IsPD (1 : Matrix (Fin n) (Fin n) K) := by
  refine ⟨Matrix.isSymm_one, fun v hv => ?_⟩
  rw [Matrix.one_mulVec]
  have h0 : 0 ≤ Matrix.dotProduct v v := Finset.sum_nonneg fun i _ => mul_self_nonneg (v i)
  rcases lt_or_eq_of_le h0 with h | h
  · exact h
  · exact absurd (Matrix.dotProduct_self_eq_zero.mp h.symm) hv

/-- The innovation covariance `R + C P Cᵀ` is positive definite when `R` is and `P`
is positive semi-definite. -/
theorem innovation_cov_pd {k : Nat} (C : Matrix (Fin k) (Fin NUM_STATES) K) (P : Mat K)
    (R S : Matrix (Fin k) (Fin k) K) (hS : S = R + C * P * C.transpose)
    (hP : IsPSD P) (hR : IsPD R) : IsPD S := by
  refine ⟨hS ▸ innovation_cov_symm C P R hP.1 hR.1, fun v hv => ?_⟩
  rw [hS, Matrix.add_mulVec, Matrix.dotProduct_add, quadratic_form_conj]
  exact add_pos_of_pos_of_nonneg (hR.2 v hv) (hP.2 _)

/-- The inverse of a positive definite matrix is positive semi-definite. -/
theorem inverse_psd {n : Nat} (S B : Matrix (Fin n) (Fin n) K) (hS : IsPD S)
    (hB : inverse S = some B) : IsPSD B := by
  have hsym : B.IsSymm := inverse_symm S B hS.1 hB
  obtain ⟨-, -, hBS⟩ := inverse_eq_some S B hB
  refine ⟨hsym, fun v => ?_⟩
  have h : B = B * S * B.transpose := by
    rw [hBS, Matrix.one_mul, hsym.eq]
  rw [h, quadratic_form_conj]
  exact hS.isPSD.2 _

/-- Joseph form of the corrected covariance: with `L = P Cᵀ B` and `B S = 1`,
`S = R + C P Cᵀ`, `(I - L C) P = (I - L C) P (I - L C)ᵀ + L R Lᵀ`. -/
theorem correction_joseph {k : Nat} (C : Matrix (Fin k) (Fin NUM_STATES) K) (P : Mat K)
    (R S B : Matrix (Fin k) (Fin k) K) (hS : S = R + C * P * C.transpose)
    (hBS : B * S = 1) :
    (1 - P * C.transpose * B * C) * P
      = (1 - P * C.transpose * B * C) * P * (1 - P * C.transpose * B * C).transpose
        + P * C.transpose * B * R * (P * C.transpose * B).transpose := by
  have h1 : P * C.transpose * B * S = P * C.transpose := by
    rw [Matrix.mul_assoc (P * C.transpose), hBS, Matrix.mul_one]
  have hR : R = S - C * P * C.transpose := by rw [hS, add_sub_cancel_right]
  have h2 : (1 - P * C.transpose * B * C) * (P * C.transpose)
      = P * C.transpose * B * R := by
    rw [hR, Matrix.mul_sub, h1, Matrix.sub_mul, Matrix.one_mul]
    simp only [Matrix.mul_assoc]
  have h3 : (1 - P * C.transpose * B * C).transpose
      = 1 - C.transpose * (P * C.transpose * B).transpose := by
    rw [Matrix.transpose_sub, Matrix.transpose_one, Matrix.transpose_mul]
  rw [h3, Matrix.mul_sub, Matrix.mul_one,
    Matrix.mul_assoc (1 - P * C.transpose * B * C) P
      (C.transpose * (P * C.transpose * B).transpose),
    ← Matrix.mul_assoc P C.transpose, ← Matrix.mul_assoc (1 - P * C.transpose * B * C)
      (P * C.transpose), h2, sub_add_cancel]

/-- The amount removed from the covariance, `P - (I - L C) P`, is
`(P Cᵀ) B (P Cᵀ)ᵀ` for a symmetric `P`. -/
theorem correction_removed {k : Nat} (C : Matrix (Fin k) (Fin NUM_STATES) K) (P : Mat K)
    (B : Matrix (Fin k) (Fin k) K) (hP : P.IsSymm) :
    P - (1 - P * C.transpose * B * C) * P
      = (P * C.transpose) * B * (P * C.transpose).transpose := by
  rw [Matrix.sub_mul, Matrix.one_mul, sub_sub_cancel, Matrix.transpose_mul,
    Matrix.transpose_transpose, hP.eq]
  simp only [Matrix.mul_assoc]

/-- A diagonal entry is the quadratic form at a unit vector. -/
theorem diag_eq_quadratic_form (M : Mat K) (i : Fin NUM_STATES) :
    M i i = Matrix.dotProduct (Pi.single i 1) (M.mulVec (Pi.single i 1)) := by
  simp [Matrix.mulVec_single]

/-- The covariance correction with a positive definite measurement noise: the
inverse exists, the corrected covariance is positive semi-definite and its diagonal
does not exceed the diagonal of `P`. -/
theorem correction_psd {k : Nat} (C : Matrix (Fin k) (Fin NUM_STATES) K) (P : Mat K)
    (R : Matrix (Fin k) (Fin k) K) (hP : IsPSD P) (hR : IsPD R) :
    ∃ B, inverse (R + C * P * C.transpose) = some B ∧
      IsPSD ((1 - P * C.transpose * B * C) * P) ∧
      ∀ i, ((1 - P * C.transpose * B * C) * P : Mat K) i i ≤ P i i := by
  have hSpd : IsPD (R + C * P * C.transpose) := innovation_cov_pd C P R _ rfl hP hR
  obtain ⟨B, hB, -, hBS⟩ := inverse_of_nonsingular _ hSpd.nonsingular
  have hBpsd : IsPSD B := inverse_psd _ B hSpd hB
  refine ⟨B, hB, ⟨correction_symm C P B hP.1 hBpsd.1, fun v => ?_⟩, fun i => ?_⟩
  · rw [correction_joseph C P R _ B rfl hBS, Matrix.add_mulVec, Matrix.dotProduct_add,
      quadratic_form_conj, quadratic_form_conj]
    exact add_nonneg (hP.2 _) (hR.isPSD.2 _)
  · have h := correction_removed C P B hP.1
    have hq : 0 ≤ (P - (1 - P * C.transpose * B * C) * P : Mat K) i i := by
      rw [diag_eq_quadratic_form (P - (1 - P * C.transpose * B * C) * P) i, h,
        quadratic_form_conj]
      exact hBpsd.2 _
    rw [Matrix.sub_apply] at hq
    exact sub_nonneg.mp hq

/-- C19: for a symmetric positive semi-definite `P` and a symmetric positive
definite measurement noise, the covariance after `updateIMU` (resp. `updateMocap`)
exists, is symmetric positive semi-definite, and none of its diagonal entries exceeds
the corresponding diagonal entry of `P`. -/
theorem correction_keeps_psd (s : mocapFilter K) (P : Mat K) (hP : s.P = some P)
    (hpsd : IsPSD P) :
    (IsPD s.R_IMU → ∀ msg, ∃ P1, (updateIMU s msg).P = some P1 ∧ IsPSD P1 ∧
      ∀ i, P1 i i ≤ P i i) ∧
    (IsPD s.R_Mocap → ∀ msg, ∃ P1, (updateMocap s msg).P = some P1 ∧ IsPSD P1 ∧
      ∀ i, P1 i i ≤ P i i) := by
  refine ⟨?_, ?_⟩
  · intro hR msg
    obtain ⟨B, hB, h1, h2⟩ := correction_psd imuC P s.R_IMU hpsd hR
    refine ⟨_, ?_, h1, h2⟩
    simp [updateIMU, hP, hB]
  · intro hR msg
    obtain ⟨B, hB, h1, h2⟩ := correction_psd mocapC P s.R_Mocap hpsd hR
    refine ⟨_, ?_, h1, h2⟩
    simp [updateMocap, hP, hB]

theorem correction_keeps_psd_witness :
    (demoFlying.P = some 1 ∧ IsPSD (1 : Mat ℚ) ∧ IsPD demoFlying.R_IMU ∧
      IsPD demoFlying.R_Mocap) ∧
    (∃ P1, (updateIMU demoFlying (demoImu 12)).P = some P1 ∧ IsPSD P1 ∧
      ∀ i, P1 i i ≤ (1 : Mat ℚ) i i) ∧
    (∃ P1, (updateMocap demoFlying demoPose).P = some P1 ∧ IsPSD P1 ∧
      ∀ i, P1 i i ≤ (1 : Mat ℚ) i i) :=
  ⟨⟨rfl, isPSD_one, isPD_one, isPD_one⟩,
   (correction_keeps_psd demoFlying 1 rfl isPSD_one).1 isPD_one (demoImu 12),
   (correction_keeps_psd demoFlying 1 rfl isPSD_one).2 isPD_one demoPose⟩

/-- C20: for every pose sample the measurement vector `y` of `updateMocap` equals the
components `PN, PE, PD, PHI, THETA, PSI` of the state that `initializeX` builds from
the same sample, and the innovation `y - C x` of `updateMocap` right after that
`initializeX` is zero in rows 0, 1, 2 and 5 (rows 3 and 4 hold roll and minus pitch). -/
theorem initializeX_updateMocap_same_convention (s : mocapFilter K)
    (msg : TransformStamped K) :
    ∃ x0, (initializeX s msg).x_hat = some x0 ∧
      (∀ k, mocapY msg k = x0 (poseIdx k)) ∧
      (mocapY msg - (mocapC : Matrix _ _ K).mulVec x0) 0 = 0 ∧
      (mocapY msg - (mocapC : Matrix _ _ K).mulVec x0) 1 = 0 ∧
      (mocapY msg - (mocapC : Matrix _ _ K).mulVec x0) 2 = 0 ∧
      (mocapY msg - (mocapC : Matrix _ _ K).mulVec x0) 5 = 0 ∧
      (mocapY msg - (mocapC : Matrix _ _ K).mulVec x0) 3 = msg.roll ∧
      (mocapY msg - (mocapC : Matrix _ _ K).mulVec x0) 4 = -msg.pitch := by
  refine ⟨_, rfl, ?_, ?_⟩
  · intro k
    fin_cases k <;> rfl
  · rw [mocapC_mulVec]
    refine ⟨?_, ?_, ?_, ?_, ?_, ?_⟩
    · exact sub_self msg.origin.x
    · exact sub_self (-msg.origin.y)
    · exact sub_self (-msg.origin.z)
    · exact sub_self (-msg.yaw)
    · exact sub_zero msg.roll
    · exact sub_zero (-msg.pitch)

/-! ## Symmetry of the covariance -/

theorem demoFlying_imu_det :
    nonsingular
      (demoFlying.R_IMU + imuC * (1 : Mat ℚ) * (imuC : Matrix _ _ ℚ).transpose) :=
  (innovation_cov_pd imuC (1 : Mat ℚ) demoFlying.R_IMU _ rfl isPSD_one isPD_one).nonsingular

/-- C7 counterexample: `P = 0`, `Q = 0`, `R_IMU = 0`, `R_Mocap = 0` are symmetric, yet
after `updateIMU`, and after `updateMocap`, no symmetric covariance exists: the
innovation covariance is the zero matrix and its inverse has no value. -/
theorem symmetry_lost_on_singular :
    demoSingular.P = some 0 ∧ (0 : Mat ℚ).IsSymm ∧ demoSingular.Q.IsSymm ∧
    demoSingular.R_IMU.IsSymm ∧ demoSingular.R_Mocap.IsSymm ∧
    (¬ ∃ P1, (updateIMU demoSingular (demoImu 0)).P = some P1 ∧ P1.IsSymm) ∧
    (¬ ∃ P1, (updateMocap demoSingular demoPose).P = some P1 ∧ P1.IsSymm) := by
  have h1 := updateIMU_of_singular demoSingular (demoImu 0) (by
    intro P hP
    have hP0 : P = 0 := (Option.some.inj hP).symm
    rw [hP0]
    exact not_not.mp demoSingular_imu_singular)
  have h2 := updateMocap_of_R_zero demoSingular demoPose rfl
  refine ⟨rfl, Matrix.isSymm_zero, Matrix.isSymm_zero, Matrix.isSymm_zero,
    Matrix.isSymm_zero, ?_, ?_⟩
  · rintro ⟨P1, h, -⟩
    rw [h1.2] at h
    cases h
  · rintro ⟨P1, h, -⟩
    rw [h2.2] at h
    cases h

/-- C7 (amended): if `P`, `Q`, `R_IMU` and `R_Mocap` are symmetric, then the covariance
is unchanged by `initializeX`, is symmetric after `predictStep` for every `now` (any
`dt`) on a defined state, and is symmetric after `updateIMU` and after `updateMocap`,
for every measurement, whenever the innovation covariance `R + C P Cᵀ` of that
correction is invertible. -/
theorem covariance_symmetry_invariant (m : Libm K) (G : K) (s : mocapFilter K) (P : Mat K)
    (hP : s.P = some P) (hsym : P.IsSymm) (hQ : s.Q.IsSymm) (hRI : s.R_IMU.IsSymm)
    (hRM : s.R_Mocap.IsSymm) :
    (∀ msg, (initializeX s msg).P = some P) ∧
    (∀ now x, s.x_hat = some x → ∃ P1, (predictStep m G s now).P = some P1 ∧ P1.IsSymm) ∧
    (∀ msg, nonsingular (s.R_IMU + imuC * P * (imuC : Matrix _ _ K).transpose) →
      ∃ P1, (updateIMU s msg).P = some P1 ∧ P1.IsSymm) ∧
    (∀ msg, nonsingular (s.R_Mocap + mocapC * P * (mocapC : Matrix _ _ K).transpose) →
      ∃ P1, (updateMocap s msg).P = some P1 ∧ P1.IsSymm) := by
  refine ⟨fun _ => hP, ?_, ?_, ?_⟩
  · intro now x hx
    have h : (predictStep m G s now).P = some (P + (now - s.previous_predict_time) •
        (dfdx m G s (x + (now - s.previous_predict_time) • f m G s x) * P
          + P * (dfdx m G s (x + (now - s.previous_predict_time) • f m G s x)).transpose
          + s.Q)) := by
      simp [predictStep, hx, hP]
    exact ⟨_, h, propagation_symm _ P s.Q _ hsym hQ⟩
  · intro msg hdet
    obtain ⟨B, hB, -, -⟩ := inverse_of_nonsingular _ hdet
    have h : (updateIMU s msg).P
        = some ((1 - P * (imuC : Matrix _ _ K).transpose * B * imuC) * P) := by
      simp [updateIMU, hP, hB]
    exact ⟨_, h, correction_symm imuC P B hsym
      (inverse_symm _ B (innovation_cov_symm imuC P s.R_IMU hsym hRI) hB)⟩
  · intro msg hdet
    obtain ⟨B, hB, -, -⟩ := inverse_of_nonsingular _ hdet
    have h : (updateMocap s msg).P
        = some ((1 - P * (mocapC : Matrix _ _ K).transpose * B * mocapC) * P) := by
      simp [updateMocap, hP, hB]
    exact ⟨_, h, correction_symm mocapC P B hsym
      (inverse_symm _ B (innovation_cov_symm mocapC P s.R_Mocap hsym hRM) hB)⟩

theorem covariance_symmetry_invariant_witness :
    (demoFlying.P = some 1 ∧ (1 : Mat ℚ).IsSymm ∧ demoFlying.Q.IsSymm ∧
      demoFlying.R_IMU.IsSymm ∧ demoFlying.R_Mocap.IsSymm ∧ demoFlying.x_hat = some 0 ∧
      nonsingular
        (demoFlying.R_IMU + imuC * (1 : Mat ℚ) * (imuC : Matrix _ _ ℚ).transpose) ∧
      nonsingular
        (demoFlying.R_Mocap + mocapC * (1 : Mat ℚ) * (mocapC : Matrix _ _ ℚ).transpose)) ∧
    (initializeX demoFlying demoPoseInit).P = some 1 ∧
    (∃ P1, (predictStep demoLibm 1 demoFlying 2).P = some P1 ∧ P1.IsSymm) ∧
    (∃ P1, (updateIMU demoFlying (demoImu 12)).P = some P1 ∧ P1.IsSymm) ∧
    (∃ P1, (updateMocap demoFlying demoPose).P = some P1 ∧ P1.IsSymm) :=
  ⟨⟨rfl, Matrix.isSymm_one, Matrix.isSymm_zero, Matrix.isSymm_one, Matrix.isSymm_one, rfl,
    demoFlying_imu_det, demoFlying_mocap_det⟩,
   (covariance_symmetry_invariant demoLibm 1 demoFlying 1 rfl Matrix.isSymm_one
     Matrix.isSymm_zero Matrix.isSymm_one Matrix.isSymm_one).1 demoPoseInit,
   (covariance_symmetry_invariant demoLibm 1 demoFlying 1 rfl Matrix.isSymm_one
     Matrix.isSymm_zero Matrix.isSymm_one Matrix.isSymm_one).2.1 2 0 rfl,
   (covariance_symmetry_invariant demoLibm 1 demoFlying 1 rfl Matrix.isSymm_one
     Matrix.isSymm_zero Matrix.isSymm_one Matrix.isSymm_one).2.2.1 (demoImu 12)
     demoFlying_imu_det,
   (covariance_symmetry_invariant demoLibm 1 demoFlying 1 rfl Matrix.isSymm_one
     Matrix.isSymm_zero Matrix.isSymm_one Matrix.isSymm_one).2.2.2 demoPose
     demoFlying_mocap_det⟩

end

end ekf
